import Mathlib

/-!
# Verification of the Import Order tab-sorting strategy

Shallow embedding of `ImportOrderStrategy` (file `importOrderStrategy` of the
tab-organizer repository) and proofs about its behaviour.

Modelling conventions:
* JavaScript `Map` objects (and plain objects used as string-keyed maps) are
  modelled as association lists `List (String × α)`; `alSet` keeps the position
  of an existing key and appends new keys at the end, matching the insertion
  order semantics of `Map.set` / property assignment, and `alGet` is `Map.get`.
* JavaScript `Set<string>` values are modelled as duplicate-free lists in
  insertion order.
* The host environment (VS Code / Node) is a record of functions `Env`:
  open-document text, disk reads (`none` models a thrown read error),
  the `fs.existsSync` probe, the workspace root, the configured alias-config
  file list, the JSON-with-comments parse of a config file's content
  (`none` models a parse error), the host string collation used by
  `String.prototype.localeCompare`, and the regex-based raw reference scan of
  §4.1 (a pure function of the text; no claim depends on its internals).
* Node's `path` helpers are modelled for POSIX ("/") paths: `path.sep` is "/",
  `path.join`/`path.resolve` concatenate and normalise "." , ".." and empty
  segments, `path.dirname` drops the last segment.
* Mutable instance state (`importCache`, `importGraph`, `pathAliases`,
  `baseUrl`) is threaded explicitly through a `St` record.
* Integers: depth scores are `Nat` (the code only ever stores non-negative
  values); in-degree counters are `Int`, mirroring that JS numbers may in
  principle go below zero in the `(get || 1) - 1` update.
-/

namespace TabOrg

/-! ## Association-list model of JS `Map` / string-keyed objects -/

/-- Models `Map.get k`: first binding of `k`, if any. -/
def alGet {α : Type} : List (String × α) → String → Option α
  | [], _ => none
  | (k', v) :: rest, k => if k' = k then some v else alGet rest k

/-- Models `Map.set k v`: update in place if present (keeping the key's position
in insertion order), otherwise append at the end. -/
def alSet {α : Type} : List (String × α) → String → α → List (String × α)
  | [], k, v => [(k, v)]
  | (k', v') :: rest, k, v =>
    if k' = k then (k, v) :: rest else (k', v') :: alSet rest k v

/-! ## String primitives

Structurally recursive replacements for the library string functions (whose
well-founded recursion the kernel cannot evaluate), operating on the
character list underlying a `String`. -/

/-- The test `text.startsWith pattern` on character lists. -/
def charsStartWith : List Char → List Char → Bool
  | _, [] => true
  | [], _ :: _ => false
  | c :: cs, p :: ps => c = p && charsStartWith cs ps

/-- Models `s.startsWith pre`. -/
def strStartsWith (s pre : String) : Bool := charsStartWith s.data pre.data

/-! ## POSIX path model (Node `path` module, "/" separator) -/

/-- Models `p.split("/")` on the character list: JS `String.prototype.split` with a
one-character separator (so `"".split` is `[""]` and a leading separator
yields a leading empty segment). -/
def splitSepChars : List Char → List Char → List String
  | [], cur => [String.mk cur.reverse]
  | c :: cs, cur =>
    if c = '/' then String.mk cur.reverse :: splitSepChars cs []
    else splitSepChars cs (c :: cur)

/-- Models `p.split(path.sep)` with `path.sep = "/"`. -/
def splitSep (p : String) : List String := splitSepChars p.data []

/-- Normalise a list of path segments: drop empty and "." segments and let
".." pop the previous segment (as Node's path normalisation does for
absolute paths, where ".." at the root is dropped). -/
def normSegs : List String → List String → List String
  | acc, [] => acc.reverse
  | acc, s :: rest =>
    if s = "" ∨ s = "." then normSegs acc rest
    else if s = ".." then normSegs acc.tail rest
    else normSegs (s :: acc) rest

/-- Characters of the segments interleaved with "/". -/
def interSlash : List String → List Char
  | [] => []
  | [s] => s.data
  | s :: rest => s.data ++ '/' :: interSlash rest

/-- Re-assemble an absolute path from normalised segments. -/
def joinSegs (segs : List String) : String :=
  String.mk ('/' :: interSlash segs)

/-- Normalise an absolute "/"-path. -/
def normPath (p : String) : String := joinSegs (normSegs [] (splitSep p))

/-- Node `path.join a b` for an absolute `a` (normalising the result). -/
def pathJoin (a b : String) : String := normPath (a ++ "/" ++ b)

/-- Node `path.resolve base p` where `base` is absolute: an absolute `p`
stands on its own, otherwise it is resolved against `base`. -/
def pathResolve (base p : String) : String :=
  if strStartsWith p "/" then normPath p else pathJoin base p

/-- Node `path.dirname` for an absolute "/"-path: drop the last segment. -/
def dirname (p : String) : String :=
  joinSegs (normSegs [] (splitSep p)).dropLast

/-! ## Data model -/

/-- A VS Code tab.  `path` is `tab.input?.uri?.fsPath` — `none` models a tab
whose input carries no file URI.  `id` stands for the tab object's identity. -/
structure Tab where
  id : Nat
  path : Option String
deriving DecidableEq, Repr

/-- Method `getTabPath` of the strategy: the tab input's file-system path. -/
def getTabPath (t : Tab) : Option String := t.path

/-- The `paths` value of one alias entry in a parsed tsconfig-style document.
`arr` is a JSON array of strings, `other` any non-array JSON value
(`Array.isArray` fails on it). -/
inductive AliasTargets where
  | arr (targets : List String)
  | other
deriving DecidableEq, Repr

/-- Parsed `compilerOptions` of a configuration document.  `paths` is the
entry list in `Object.entries` order; a missing/empty `paths` object is
the empty list. -/
structure CompilerOpts where
  baseUrl : Option String
  paths : List (String × AliasTargets)
deriving DecidableEq, Repr

/-- The host environment: everything the strategy obtains from VS Code, Node
`fs`, and the JS runtime.  Functions returning `Option` model fallible or
possibly-absent results (`none` = throw / undefined). -/
structure Env where
  /-- `findOpenDocument(p)?.getText()`: text of an open document, if any. -/
  openDoc : String → Option String
  /-- `fs.readFileSync(p, "utf8")`: `none` models a thrown read error. -/
  readFile : String → Option String
  /-- `fs.existsSync(p)`. -/
  fileExists : String → Bool
  /-- `vscode.workspace.workspaceFolders?.[0]?.uri.fsPath`. -/
  workspaceRoot : Option String
  /-- the `tabOrganizer.aliasConfigFiles` setting. -/
  aliasConfigFiles : List String
  /-- comment-stripping plus `JSON.parse` of a config file's content, projected
  to the `compilerOptions` fields the code reads; `none` models a parse
  error (caught and swallowed by the loader). -/
  parseConfig : String → Option CompilerOpts
  /-- `a.localeCompare(b)`: the host's locale-aware collation. -/
  localeCompare : String → String → Int
  /-- the three-regex raw reference scan over a file's text (§4.1), in match
  order.  Pure function of the text. -/
  scanRefs : String → List String

/-- Mutable instance state of `ImportOrderStrategy`. -/
structure St where
  /-- `importGraph`: file path → set of resolved import paths. -/
  importGraph : List (String × List String)
  /-- `importCache`: file path → cached resolved import set. -/
  importCache : List (String × List String)
  /-- `pathAliases`: `none` = not yet loaded (JS `null`), `some m` = loaded. -/
  pathAliases : Option (List (String × String))
  /-- `baseUrl` from the loaded configuration. -/
  baseUrl : Option String
deriving DecidableEq, Repr

/-- A freshly constructed strategy instance. -/
def St.init : St := ⟨[], [], none, none⟩

/-- Method `clearCache()`. -/
def clearCache (_st : St) : St := ⟨[], [], none, none⟩

/-! ## Tab-path matcher (`findMatchingTabPath`) -/

/-- Length of the common prefix of two segment lists (used on reversed
segment lists to model the source's backwards scan). -/
def commonPrefixLen : List String → List String → Nat
  | a :: as, b :: bs => if a = b then commonPrefixLen as bs + 1 else 0
  | _, _ => 0

/-- The source's `matchLength` for a candidate and one tab path: the number
of consecutive equal trailing segments (the loop comparing
`resolvedSegments[len-i]` with `tabSegments[len-i]` for `i = 1..min`,
breaking at the first mismatch). -/
def matchLen (resolvedPath tabPath : String) : Nat :=
  commonPrefixLen (splitSep resolvedPath).reverse (splitSep tabPath).reverse

/-- The matcher's candidate loop, threading `bestMatch` / `bestMatchLength`.
A tab path is taken when its match length is at least 2 and strictly beats
the best so far. -/
def fmLoop (resolvedPath : String) :
    List String → Option String → Nat → Option String
  | [], best, _ => best
  | tabPath :: rest, best, bestLen =>
    let ml := matchLen resolvedPath tabPath
    if 2 ≤ ml ∧ bestLen < ml then fmLoop resolvedPath rest (some tabPath) ml
    else fmLoop resolvedPath rest best bestLen

/-- Method `findMatchingTabPath`: exact match first, then longest-suffix matching
with the two-segment threshold, first-evaluated winning ties. -/
def findMatchingTabPath (resolvedPath : String) (tabPaths : List String) :
    Option String :=
  if resolvedPath ∈ tabPaths then some resolvedPath
  else fmLoop resolvedPath tabPaths none 0

/-! ## Extension/index probing (`resolveWithExtensions`) -/

/-- First loop of `resolveWithExtensions`: for each extension of the list,
test `resolved + ext` against the existence probe. -/
def tryExts (fe : String → Bool) (resolved : String) : List String → Option String
  | [] => none
  | ext :: rest =>
    let testPath := resolved ++ ext
    if fe testPath then some testPath else tryExts fe resolved rest

/-- Second loop of `resolveWithExtensions`: for each extension of the list,
test `path.join(resolved, "index" + ext)`. -/
def tryIndexes (fe : String → Bool) (resolved : String) : List String → Option String
  | [] => none
  | ext :: rest =>
    let testPath := pathJoin resolved ("index" ++ ext)
    if fe testPath then some testPath else tryIndexes fe resolved rest

/-- Method `resolveWithExtensions`: the extension loop over
`[".ts", ".tsx", ".js", ".jsx", ""]`, then the index-file loop over
`[".ts", ".tsx", ".js", ".jsx"]`. -/
def resolveWithExtensions (fe : String → Bool) (resolved : String) : Option String :=
  match tryExts fe resolved [".ts", ".tsx", ".js", ".jsx", ""] with
  | some p => some p
  | none =>
    match tryIndexes fe resolved [".ts", ".tsx", ".js", ".jsx"] with
    | some p => some p
    | none => none

/-! ## Alias table loading (`loadPathAliases`) -/

/-- Models `alias.replace` of the trailing wildcard: strip one trailing "/*". -/
def stripStar (s : String) : String :=
  if charsStartWith s.data.reverse ['*', '/'] then String.mk (s.data.dropLast.dropLast)
  else s

/-- Build the alias map from a non-empty `paths` entry list: keep only
entries whose target is a non-empty array, taking the first target and
stripping trailing wildcards from both sides. -/
def aliasesOfPaths (paths : List (String × AliasTargets)) :
    List (String × String) :=
  paths.foldl
    (fun m e =>
      match e.2 with
      | .arr (t :: _) => alSet m (stripStar e.1) (stripStar t)
      | _ => m)
    []

/-- The candidate loop of `loadPathAliases`: skip a candidate that does not
exist, fails to read, fails to parse, or declares no `paths` entries;
otherwise record base directory and alias map and stop (`break`). -/
def loadLoop (env : Env) (root : String) : List String → St → St
  | [], st => st
  | configFile :: rest, st =>
    let configPath := pathJoin root configFile
    if env.fileExists configPath then
      match env.readFile configPath with
      | none => loadLoop env root rest st
      | some content =>
        match env.parseConfig content with
        | none => loadLoop env root rest st
        | some opts =>
          if opts.paths = [] then loadLoop env root rest st
          else
            let base :=
              match opts.baseUrl with
              | some b => pathResolve root b
              | none => root
            { st with
              pathAliases := some (aliasesOfPaths opts.paths)
              baseUrl := some base }
    else loadLoop env root rest st

/-- Method `loadPathAliases`: a no-op once `pathAliases` is non-null; otherwise set
it to the empty map, bail out without a workspace root, else scan the
configured candidate files in order. -/
def loadPathAliases (env : Env) (st : St) : St :=
  match st.pathAliases with
  | some _ => st
  | none =>
    let st := { st with pathAliases := some [] }
    match env.workspaceRoot with
    | none => st
    | some root => loadLoop env root env.aliasConfigFiles st

/-! ## Import path resolution (`resolveImportPath`) -/

/-- The alias-substitution loop: first alias that equals the reference or is
a "/"-separated prefix of it wins. -/
def aliasLoop (env : Env) (baseUrl importPath : String) :
    List (String × String) → Option String
  | [] => none
  | (al, target) :: rest =>
    if importPath = al ∨ strStartsWith importPath (al ++ "/") then
      let remainder := String.mk (importPath.data.drop al.data.length)
      resolveWithExtensions env.fileExists (pathJoin baseUrl (target ++ remainder))
    else aliasLoop env baseUrl importPath rest

/-- Method `resolveImportPath`: relative/absolute references resolve against the
importing file's directory; otherwise try the alias table (loading it
lazily); bare package references resolve to nothing.  Returns the resolved
path (if any) together with the possibly-updated state. -/
def resolveImportPath (env : Env) (st : St) (fromFile importPath : String) :
    Option String × St :=
  if strStartsWith importPath "." ∨ strStartsWith importPath "/" then
    (resolveWithExtensions env.fileExists (pathResolve (dirname fromFile) importPath), st)
  else
    let st := loadPathAliases env st
    match st.pathAliases, st.baseUrl with
    | some aliases, some base => (aliasLoop env base importPath aliases, st)
    | _, _ => (none, st)

/-! ## Reference extraction with cache (`extractImports`) -/

/-- JS `Set.add` on a list kept duplicate-free in insertion order. -/
def setAdd (s : List String) (x : String) : List String :=
  if x ∈ s then s else s ++ [x]

/-- Resolve each raw reference of the scan, adding successful resolutions to
the import set (a JS `Set`), threading the state. -/
def resolveRefs (env : Env) (fromFile : String) :
    List String → List String → St → List String × St
  | [], imports, st => (imports, st)
  | ref :: rest, imports, st =>
    match resolveImportPath env st fromFile ref with
    | (some resolved, st') => resolveRefs env fromFile rest (setAdd imports resolved) st'
    | (none, st') => resolveRefs env fromFile rest imports st'

/-- Method `extractImports`: cache hit returns the cached set unchanged; otherwise
take the open document's text, or fall back to a disk read whose failure
caches the empty set; an empty text (JS falsy) also caches the empty set;
otherwise scan, resolve, and cache. -/
def extractImports (env : Env) (st : St) (filePath : String) :
    List String × St :=
  match alGet st.importCache filePath with
  | some cached => (cached, st)
  | none =>
    let text? :=
      match env.openDoc filePath with
      | some t => some t
      | none => env.readFile filePath
    match text? with
    | none => ([], { st with importCache := alSet st.importCache filePath [] })
    | some text =>
      if text = "" then
        ([], { st with importCache := alSet st.importCache filePath [] })
      else
        let (imports, st') := resolveRefs env filePath (env.scanRefs text) [] st
        (imports, { st' with importCache := alSet st'.importCache filePath imports })

/-- Method `buildImportGraph`: reset the graph, then store each path-bearing tab's
extracted import set. -/
def buildLoop (env : Env) : List Tab → St → St
  | [], st => st
  | tab :: rest, st =>
    match getTabPath tab with
    | none => buildLoop env rest st
    | some filePath =>
      let (imports, st') := extractImports env st filePath
      buildLoop env rest { st' with importGraph := alSet st'.importGraph filePath imports }

def buildImportGraph (env : Env) (st : St) (tabs : List Tab) : St :=
  buildLoop env tabs { st with importGraph := [] }

/-! ## Score calculation (`calculateImportScores`) -/

/-- Models `new Set(tabs.map(getTabPath).filter(defined))`: the distinct tab paths
in first-occurrence order. -/
def tabPathsOf (tabs : List Tab) : List String :=
  tabs.foldl
    (fun acc tab =>
      match getTabPath tab with
      | some p => setAdd acc p
      | none => acc)
    []

/-- Initialise `incomingCount` with every tab path at 0. -/
def initCounts (tps : List String) : List (String × Int) :=
  tps.foldl (fun c p => alSet c p 0) []

/-- Process one resolved import during in-degree counting: on a suffix match,
record the resolved-path → tab-path mapping and bump the target's count. -/
def incEdge (tps : List String)
    (acc : List (String × String) × List (String × Int)) (imported : String) :
    List (String × String) × List (String × Int) :=
  match findMatchingTabPath imported tps with
  | some matchingTab =>
    (alSet acc.1 imported matchingTab,
     alSet acc.2 matchingTab ((alGet acc.2 matchingTab).getD 0 + 1))
  | none => acc

/-- Process one graph entry's import set. -/
def incEntry (tps : List String)
    (acc : List (String × String) × List (String × Int))
    (entry : String × List String) :
    List (String × String) × List (String × Int) :=
  entry.2.foldl (incEdge tps) acc

/-- The in-degree counting pass over `Object.entries(importGraph)`: returns
`resolvedToTabPath` and the populated `incomingCount`. -/
def buildIncoming (g : List (String × List String)) (tps : List String) :
    List (String × String) × List (String × Int) :=
  g.foldl (incEntry tps) ([], initCounts tps)

/-- The seeding pass: every entry of `incomingCount` (in insertion order)
with count 0 is pushed on the queue and assigned depth 0. -/
def seedPhase (counts : List (String × Int)) :
    List String × List (String × Nat) :=
  counts.foldl
    (fun acc e => if e.2 = 0 then (acc.1 ++ [e.1], alSet acc.2 e.1 0) else acc)
    ([], [])

/-- State of the BFS loop.  `enq` records every path ever enqueued (the
seeds plus each later push); it is write-only instrumentation, read by no
update. -/
structure KState where
  depths : List (String × Nat)
  counts : List (String × Int)
  queue : List String
  enq : List String
deriving DecidableEq, Repr

/-- Process one outgoing resolved import of the dequeued file: a target
known to `resolvedToTabPath` has its count decremented via the JS
`(get || 1) - 1` update, its depth raised to
`max(existing depth or 0, currentDepth + 1)`, and is enqueued when the
new count is 0. -/
def edgeStep (rtt : List (String × String)) (currentDepth : Nat)
    (s : KState) (imported : String) : KState :=
  match alGet rtt imported with
  | none => s
  | some matchingTab =>
    let c :=
      match alGet s.counts matchingTab with
      | none => 1
      | some c => if c = 0 then 1 else c
    let newCount := c - 1
    let existingDepth := (alGet s.depths matchingTab).getD 0
    { depths := alSet s.depths matchingTab (max existingDepth (currentDepth + 1))
      counts := alSet s.counts matchingTab newCount
      queue := if newCount = 0 then s.queue ++ [matchingTab] else s.queue
      enq := if newCount = 0 then s.enq ++ [matchingTab] else s.enq }

/-- The BFS loop (`while (queue.length > 0)`), fuel-bounded.  Every file is
enqueued at most once (a seed has in-degree 0 and is never the target of a
matched edge; a non-seed's count reaches 0 exactly once), so the loop runs
at most once per distinct tab path and fuel `tps.length` reproduces the
source's run-to-drain behaviour. -/
def kahnLoop (g : List (String × List String)) (rtt : List (String × String)) :
    Nat → KState → KState
  | 0, s => s
  | fuel + 1, s =>
    match s.queue with
    | [] => s
    | current :: rest =>
      let currentDepth := (alGet s.depths current).getD 0
      let imports := (alGet g current).getD []
      let s' := imports.foldl (edgeStep rtt currentDepth) { s with queue := rest }
      kahnLoop g rtt fuel s'

/-- Run seeding plus the BFS over a graph and tab-path set. -/
def runKahn (g : List (String × List String)) (tps : List String) : KState :=
  let bi := buildIncoming g tps
  let sd := seedPhase bi.2
  kahnLoop g bi.1 tps.length ⟨sd.2, bi.2, sd.1, sd.1⟩

/-- Models `Math.max(...depths.values(), 0)`. -/
def maxDepths (depths : List (String × Nat)) : Nat :=
  depths.foldl (fun acc e => max acc e.2) 0

/-- The post-loop pass: every tab path still missing from `depths` is
assigned `maxDepth + 1`. -/
def sentinelPhase (tps : List String) (depths : List (String × Nat)) :
    List (String × Nat) :=
  let m := maxDepths depths
  tps.foldl
    (fun d p => match alGet d p with | some _ => d | none => alSet d p (m + 1))
    depths

/-- Method `calculateImportScores` on an explicit graph and tab-path set. -/
def calcScoresCore (g : List (String × List String)) (tps : List String) :
    List (String × Nat) :=
  sentinelPhase tps (runKahn g tps).depths

/-- Method `calculateImportScores(tabs)` reading the instance's `importGraph`. -/
def calculateImportScores (g : List (String × List String)) (tabs : List Tab) :
    List (String × Nat) :=
  calcScoresCore g (tabPathsOf tabs)

/-! ## The sort façade -/

/-- The comparator passed to `Array.prototype.sort`: pathless tabs sort
last, then ascending depth score, then the host's `localeCompare` on the
absolute paths. -/
def tabCompare (lc : String → String → Int) (scores : List (String × Nat))
    (a b : Tab) : Int :=
  match getTabPath a, getTabPath b with
  | none, none => 0
  | none, some _ => 1
  | some _, none => -1
  | some pathA, some pathB =>
    let depthA := (alGet scores pathA).getD 0
    let depthB := (alGet scores pathB).getD 0
    if depthA ≠ depthB then (depthA : Int) - (depthB : Int)
    else lc pathA pathB

/-- The scores a `sort` call computes from a given starting state. -/
def sortScores (env : Env) (st : St) (tabs : List Tab) : List (String × Nat) :=
  calculateImportScores (buildImportGraph env st tabs).importGraph tabs

/-- Method `sort(tabs)`: build the graph, compute scores, and stable-sort the tab
array by the comparator.  ECMAScript guarantees `Array.prototype.sort` is
stable, and for a consistent comparator its output is the unique stable
sort, which `List.insertionSort` on `comparator ≤ 0` computes. -/
def sortRun (env : Env) (st : St) (tabs : List Tab) : List Tab × St :=
  let st₁ := buildImportGraph env st tabs
  let scores := calculateImportScores st₁.importGraph tabs
  (tabs.insertionSort (fun a b => tabCompare env.localeCompare scores a b ≤ 0), st₁)

/-! ## Derived notions used in the statements -/

/-- Plain code-point lexicographic comparison of character lists. -/
def cpCompareChars : List Char → List Char → Int
  | [], [] => 0
  | [], _ :: _ => -1
  | _ :: _, [] => 1
  | c :: cs, d :: ds =>
    if c < d then -1 else if d < c then 1 else cpCompareChars cs ds

/-- Plain code-point ("byte"-order for ASCII) string comparison: the ordering
the spec ascribes to the tie-break. -/
def cpCompare (a b : String) : Int := cpCompareChars a.data b.data

/-- A locale-aware collation agreeing with the default ICU root collation
(as used by `String.prototype.localeCompare` with no arguments) on ASCII
letters at primary strength: case is ignored before code points are
compared, so "a" sorts before "B". -/
def icuLikeCompare (a b : String) : Int :=
  cpCompareChars (a.data.map Char.toLower) (b.data.map Char.toLower)

/-- The number of matched incoming edges of `p`: over every graph entry, how
many of its resolved imports the matcher sends to `p`.  This is the value
`incomingCount` holds for `p` when the seeding phase starts. -/
def matchedInDeg (g : List (String × List String)) (tps : List String)
    (p : String) : Nat :=
  (g.map fun e => e.2.countP fun i => findMatchingTabPath i tps == some p).sum

/-- Matched incoming edges of `p` that originate in a file other than `p`
itself — the reading of "no other open file's import set targets it". -/
def matchedInDegOthers (g : List (String × List String)) (tps : List String)
    (p : String) : Nat :=
  ((g.filter fun e => e.1 ≠ p).map
    fun e => e.2.countP fun i => findMatchingTabPath i tps == some p).sum

/-- The flat probe order of `resolveWithExtensions`: the four extensions,
the bare candidate (the trailing empty extension), then the four `index`
files. -/
def probeList (resolved : String) : List String :=
  [resolved ++ ".ts", resolved ++ ".tsx", resolved ++ ".js", resolved ++ ".jsx",
   resolved ++ "",
   pathJoin resolved "index.ts", pathJoin resolved "index.tsx",
   pathJoin resolved "index.js", pathJoin resolved "index.jsx"]

/-- Probe order as the specification words it: the bare candidate first,
then the four extensions, then the empty extension again, then the `index`
files. -/
def probeListClaimed (resolved : String) : List String :=
  [resolved, resolved ++ ".ts", resolved ++ ".tsx", resolved ++ ".js",
   resolved ++ ".jsx", resolved ++ "",
   pathJoin resolved "index.ts", pathJoin resolved "index.tsx",
   pathJoin resolved "index.js", pathJoin resolved "index.jsx"]

/-- Extension/index probing as the specification describes it, for
comparison with `resolveWithExtensions`. -/
def resolveWithExtensionsClaimed (fe : String → Bool) (resolved : String) :
    Option String :=
  (probeListClaimed resolved).find? fe

/-! ## Fixtures and auxiliary predicates used in the statements -/

/-- An existence probe on which both the bare candidate `/p/foo` and the
`.ts` candidate `/p/foo.ts` exist. -/
def feBoth : String → Bool := fun p => p = "/p/foo" || p = "/p/foo.ts"

/-- An environment where every read fails. -/
def envNoRead : Env :=
  { openDoc := fun _ => none
    readFile := fun _ => none
    fileExists := fun _ => false
    workspaceRoot := none
    aliasConfigFiles := []
    parseConfig := fun _ => none
    localeCompare := fun _ _ => 0
    scanRefs := fun _ => [] }

/-- A state whose cache already holds an entry for "/x.ts". -/
def stCached : St := ⟨[], [("/x.ts", ["/y.ts"])], none, none⟩

/-- An environment whose collation behaves like the default ICU root
collation on the fixture's ASCII paths ("a" sorts before "B") and whose
reads yield empty texts, so every depth is 0. -/
def envIcu : Env :=
  { openDoc := fun _ => some ""
    readFile := fun _ => none
    fileExists := fun _ => false
    workspaceRoot := none
    aliasConfigFiles := []
    parseConfig := fun _ => none
    localeCompare := icuLikeCompare
    scanRefs := fun _ => [] }

/-- A candidate configuration file the loader skips: missing, unreadable,
unparseable, or declaring no `paths` entries. -/
def skipsConfig (env : Env) (root c : String) : Prop :=
  env.fileExists (pathJoin root c) = false ∨
  env.readFile (pathJoin root c) = none ∨
  (∃ content, env.readFile (pathJoin root c) = some content ∧
    env.parseConfig content = none) ∨
  (∃ content opts, env.readFile (pathJoin root c) = some content ∧
    env.parseConfig content = some opts ∧ opts.paths = [])

/-- The base directory the loader derives from an accepted configuration. -/
def configBase (root : String) (opts : CompilerOpts) : String :=
  match opts.baseUrl with
  | some b => pathResolve root b
  | none => root

/-- A candidate configuration file the loader accepts: it exists, reads,
parses, and declares a non-empty `paths` entry list. -/
def acceptsConfig (env : Env) (root c : String) (opts : CompilerOpts) : Prop :=
  env.fileExists (pathJoin root c) = true ∧
  ∃ content, env.readFile (pathJoin root c) = some content ∧
    env.parseConfig content = some opts ∧ opts.paths ≠ []

/-- An environment whose first alias-config candidate is missing and whose
second declares one wildcard alias. -/
def envAlias : Env :=
  { openDoc := fun _ => none
    readFile := fun p => if p = "/ws/b.json" then some "B" else none
    fileExists := fun p => p = "/ws/b.json"
    workspaceRoot := some "/ws"
    aliasConfigFiles := ["a.json", "b.json"]
    parseConfig := fun s =>
      if s = "B" then some ⟨none, [("@/*", .arr ["src/*"])]⟩ else none
    localeCompare := fun _ _ => 0
    scanRefs := fun _ => [] }

/-- An environment whose first candidate declares a `paths` object whose
only entry has a non-array target (so it yields NO usable alias), and whose
second candidate declares a usable alias. -/
def envAliasStop : Env :=
  { openDoc := fun _ => none
    readFile := fun p =>
      if p = "/ws/a.json" then some "A"
      else if p = "/ws/b.json" then some "B" else none
    fileExists := fun p => p = "/ws/a.json" || p = "/ws/b.json"
    workspaceRoot := some "/ws"
    aliasConfigFiles := ["a.json", "b.json"]
    parseConfig := fun s =>
      if s = "A" then some ⟨none, [("@", .other)]⟩
      else if s = "B" then some ⟨none, [("@", .arr ["src"])]⟩ else none
    localeCompare := fun _ _ => 0
    scanRefs := fun _ => [] }

/-- The same environment restricted to the second candidate only. -/
def envAliasStopB : Env := { envAliasStop with aliasConfigFiles := ["b.json"] }

/-- A single open file whose one resolved import matches itself. -/
def gSelf : List (String × List String) := [("/p/a.ts", ["/p/a.ts"])]

def tpsSelf : List String := ["/p/a.ts"]

/-- A file importing itself while a second open file also imports it: a
matched self-edge that is NOT the file's only matched incoming edge. -/
def gSelfExt : List (String × List String) :=
  [("/p/a.ts", ["/p/a.ts"]), ("/p/b.ts", ["/p/a.ts"])]

def tpsSelfExt : List String := ["/p/a.ts", "/p/b.ts"]

/-- Two open files in a pure two-cycle. -/
def gCycle2 : List (String × List String) :=
  [("/a.ts", ["/b.ts"]), ("/b.ts", ["/a.ts"])]

def tpsCycle2 : List String := ["/a.ts", "/b.ts"]

/-- A root importing into a two-cycle: `/a.ts → /b.ts`, `/b.ts ↔ /c.ts`. -/
def gPartial : List (String × List String) :=
  [("/a.ts", ["/b.ts"]), ("/b.ts", ["/c.ts"]), ("/c.ts", ["/b.ts"])]

def tpsPartial : List String := ["/a.ts", "/b.ts", "/c.ts"]

/-- Path `p`'s depth entry is absent or at least 1. -/
def depthPosAt (p : String) (depths : List (String × Nat)) : Prop :=
  alGet depths p = none ∨ ∃ d, alGet depths p = some d ∧ 1 ≤ d

/-- The traversal has not enqueued `p` nor assigned it a depth. -/
def untouchedAt (p : String) (s : KState) : Prop :=
  p ∉ s.queue ∧ p ∉ s.enq ∧ alGet s.depths p = none

/-- The graph obtained by looking every path-bearing tab up in a fixed
cache. -/
def gFoldCache (cache : List (String × List String)) (tabs : List Tab)
    (g0 : List (String × List String)) : List (String × List String) :=
  tabs.foldl
    (fun g t =>
      match getTabPath t with
      | some p => alSet g p ((alGet cache p).getD [])
      | none => g)
    g0

/-! ## Helper lemmas -/

theorem alGet_alSet_self {α : Type} (l : List (String × α)) (k : String) (v : α) :
    alGet (alSet l k v) k = some v := by
  induction l with
  | nil => simp [alGet, alSet]
  | cons hd tl ih =>
    obtain ⟨k', v'⟩ := hd
    by_cases h : k' = k
    · simp [alGet, alSet, h]
    · simp [alGet, alSet, h, ih]

theorem alGet_alSet_ne {α : Type} (l : List (String × α)) (k k' : String) (v : α)
    (h : k ≠ k') : alGet (alSet l k v) k' = alGet l k' := by
  induction l with
  | nil => simp [alGet, alSet, h]
  | cons hd tl ih =>
    obtain ⟨k₀, v₀⟩ := hd
    by_cases h₀ : k₀ = k
    · subst h₀
      simp [alGet, alSet, h]
    · simp only [alSet, if_neg h₀]
      by_cases h₁ : k₀ = k'
      · simp [alGet, h₁]
      · simp [alGet, h₁, ih]

theorem alGet_mem {α : Type} {l : List (String × α)} {k : String} {v : α}
    (h : alGet l k = some v) : (k, v) ∈ l := by
  induction l with
  | nil => simp [alGet] at h
  | cons hd tl ih =>
    obtain ⟨k', v'⟩ := hd
    by_cases hk : k' = k
    · subst hk
      simp only [alGet, if_pos, Option.some.injEq] at h
      subst h
      exact List.mem_cons_self _ _
    · simp only [alGet, if_neg hk] at h
      exact List.mem_cons_of_mem _ (ih h)

theorem countP_pos_of_mem {l : List String} {p : String → Bool} {i : String}
    (hi : i ∈ l) (hp : p i = true) : 1 ≤ l.countP p := by
  induction l with
  | nil => simp at hi
  | cons hd tl ih =>
    rcases List.mem_cons.mp hi with h | h
    · subst h
      simp [List.countP_cons, hp]
    · have := ih h
      simp only [List.countP_cons]
      omega

theorem matchedInDeg_pos {g : List (String × List String)} {tps : List String}
    {p u : String} {imps : List String} {i : String}
    (hu : (u, imps) ∈ g) (hi : i ∈ imps)
    (hm : findMatchingTabPath i tps = some p) :
    1 ≤ matchedInDeg g tps p := by
  unfold matchedInDeg
  induction g with
  | nil => simp at hu
  | cons hd tl ih =>
    rcases List.mem_cons.mp hu with h | h
    · subst h
      have : 1 ≤ imps.countP fun j => findMatchingTabPath j tps == some p :=
        countP_pos_of_mem hi (by simp [hm])
      simp only [List.map_cons, List.sum_cons]
      omega
    · have := ih h
      simp only [List.map_cons, List.sum_cons]
      omega

/-! ## Matcher lemmas -/

theorem fmLoop_isSome (r : String) :
    ∀ (l : List String) (b : String) (bl : Nat),
      ∃ t, fmLoop r l (some b) bl = some t := by
  intro l
  induction l with
  | nil => intro b bl; exact ⟨b, rfl⟩
  | cons u rest ih =>
    intro b bl
    simp only [fmLoop]
    split
    · exact ih u _
    · exact ih b bl

theorem fmLoop_none_iff (r : String) :
    ∀ (l : List String) (bl : Nat),
      fmLoop r l none bl = none ↔
        ∀ p ∈ l, ¬(2 ≤ matchLen r p ∧ bl < matchLen r p) := by
  intro l
  induction l with
  | nil => intro bl; simp [fmLoop]
  | cons u rest ih =>
    intro bl
    simp only [fmLoop]
    split
    · rename_i hc
      obtain ⟨t, ht⟩ := fmLoop_isSome r rest u (matchLen r u)
      rw [ht]
      simp only [reduceCtorEq, false_iff, not_forall]
      exact ⟨u, List.mem_cons_self _ _, by simpa using hc⟩
    · rename_i hc
      rw [ih bl]
      constructor
      · intro h p hp
        rcases List.mem_cons.mp hp with h' | h'
        · subst h'; exact hc
        · exact h p h'
      · intro h p hp
        exact h p (List.mem_cons_of_mem _ hp)

theorem fmLoop_some_spec (r : String) :
    ∀ (l : List String) (b : Option String) (bl : Nat) (t : String),
      ((b = none ∧ bl = 0) ∨ (∃ x, b = some x ∧ 2 ≤ bl ∧ matchLen r x = bl)) →
      fmLoop r l b bl = some t →
      (b = some t ∧ ∀ p ∈ l, ¬(2 ≤ matchLen r p ∧ bl < matchLen r p)) ∨
      (∃ l₁ l₂, l = l₁ ++ t :: l₂ ∧ 2 ≤ matchLen r t ∧ bl < matchLen r t ∧
        (∀ p ∈ l₁, matchLen r p < matchLen r t) ∧
        (∀ p ∈ l₂, matchLen r p ≤ matchLen r t)) := by
  intro l
  induction l with
  | nil =>
    intro b bl t _ h
    left
    simp only [fmLoop] at h
    exact ⟨h, by simp⟩
  | cons u rest ih =>
    intro b bl t hb h
    simp only [fmLoop] at h
    split at h
    · rename_i hc
      have := ih (some u) (matchLen r u) t (Or.inr ⟨u, rfl, hc.1, rfl⟩) h
      rcases this with ⟨hbt, hrest⟩ | ⟨l₁, l₂, hsplit, h2, hlt, h₁, h₂⟩
      · right
        have htu : t = u := by injection hbt.symm
        subst htu
        refine ⟨[], rest, by simp, hc.1, hc.2, by simp, ?_⟩
        intro p hp
        have := hrest p hp
        omega
      · right
        refine ⟨u :: l₁, l₂, by simp [hsplit], h2, ?_, ?_, h₂⟩
        · omega
        · intro p hp
          rcases List.mem_cons.mp hp with h' | h'
          · subst h'; omega
          · exact h₁ p h'
    · rename_i hc
      have := ih b bl t hb h
      rcases this with ⟨hbt, hrest⟩ | ⟨l₁, l₂, hsplit, h2, hlt, h₁, h₂⟩
      · left
        refine ⟨hbt, ?_⟩
        intro p hp
        rcases List.mem_cons.mp hp with h' | h'
        · subst h'; exact hc
        · exact hrest p h'
      · right
        refine ⟨u :: l₁, l₂, by simp [hsplit], h2, hlt, ?_, h₂⟩
        intro p hp
        rcases List.mem_cons.mp hp with h' | h'
        · subst h'; omega
        · exact h₁ p h'

/-- Claim **C6.** The tab-path matcher, on a resolved path with no exact match
among the open-file paths: it returns nothing exactly when every open path
shares fewer than two consecutive trailing segments with the candidate
(single shared filenames are rejected); and when it returns a match, that
match meets the two-segment threshold, every open path evaluated before it
has a strictly shorter matching trailing run, and every one after it a run
no longer (longest wins, first evaluated wins ties). -/
theorem C6_matcher_threshold_longest_first (r : String) (ps : List String)
    (h : r ∉ ps) :
    (findMatchingTabPath r ps = none ↔ ∀ p ∈ ps, matchLen r p < 2) ∧
    (∀ t, findMatchingTabPath r ps = some t →
      2 ≤ matchLen r t ∧
      ∃ l₁ l₂, ps = l₁ ++ t :: l₂ ∧
        (∀ p ∈ l₁, matchLen r p < matchLen r t) ∧
        (∀ p ∈ l₂, matchLen r p ≤ matchLen r t)) := by
  have hne : findMatchingTabPath r ps = fmLoop r ps none 0 := by
    simp [findMatchingTabPath, h]
  constructor
  · rw [hne, fmLoop_none_iff]
    constructor
    · intro hh p hp
      have := hh p hp
      omega
    · intro hh p hp
      have := hh p hp
      omega
  · intro t ht
    rw [hne] at ht
    have := fmLoop_some_spec r ps none 0 t (Or.inl ⟨rfl, rfl⟩) ht
    rcases this with ⟨hbt, _⟩ | ⟨l₁, l₂, hsplit, h2, _, h₁, h₂⟩
    · exact absurd hbt (by simp)
    · exact ⟨h2, l₁, l₂, hsplit, h₁, h₂⟩

/-- Witness for C6 on the spec's fixture: `/other/random/util.ts` shares
only the filename with the open file, so the matcher rejects it. -/
theorem C6_matcher_threshold_longest_first_witness :
    findMatchingTabPath "/other/random/util.ts" ["/work/tree-a/src/util.ts"] = none :=
  (C6_matcher_threshold_longest_first "/other/random/util.ts"
    ["/work/tree-a/src/util.ts"] (by decide)).1.mpr (by decide)

/-! ## C1: the sort is a permutation -/

/-- Claim **C1.** For every environment, starting state, and input tab list, the
Import Order strategy's sort returns a permutation of its input: no tab is
created, dropped, or duplicated. -/
theorem C1_sort_is_permutation (env : Env) (st : St) (tabs : List Tab) :
    (sortRun env st tabs).1.Perm tabs :=
  List.perm_insertionSort _ tabs

/-! ## C5: probe order of extension/index resolution -/

theorem tryExts_eq_find (fe : String → Bool) (resolved : String) :
    ∀ exts : List String,
      tryExts fe resolved exts = (exts.map (resolved ++ ·)).find? fe := by
  intro exts
  induction exts with
  | nil => rfl
  | cons e rest ih =>
    simp only [tryExts, List.map_cons, List.find?]
    split
    · rename_i h
      simp [h]
    · rename_i h
      rw [Bool.not_eq_true] at h
      simp [h, ih]

theorem tryIndexes_eq_find (fe : String → Bool) (resolved : String) :
    ∀ exts : List String,
      tryIndexes fe resolved exts
        = (exts.map fun e => pathJoin resolved ("index" ++ e)).find? fe := by
  intro exts
  induction exts with
  | nil => rfl
  | cons e rest ih =>
    simp only [tryIndexes, List.map_cons, List.find?]
    split
    · rename_i h
      simp [h]
    · rename_i h
      rw [Bool.not_eq_true] at h
      simp [h, ih]

theorem find?_append_cons (fe : String → Bool) :
    ∀ (l₁ l₂ : List String),
      (l₁ ++ l₂).find? fe
        = match l₁.find? fe with
          | some x => some x
          | none => l₂.find? fe := by
  intro l₁ l₂
  induction l₁ with
  | nil => simp
  | cons x rest ih =>
    simp only [List.cons_append, List.find?]
    cases fe x <;> simp [ih]

/-- Claim **C5 (amended).** `resolveWithExtensions` probes, in order, the candidate
with each of `.ts`, `.tsx`, `.js`, `.jsx` appended, THEN the bare candidate
(via the trailing empty extension), and only if none of those exists the
candidate as a directory holding `index.ts`, `index.tsx`, `index.js`,
`index.jsx`; the first existing probe wins and exhaustion yields nothing.
Equivalently, its result is `find?` of the existence probe over that flat
probe list. -/
theorem C5_probe_order (fe : String → Bool) (resolved : String) :
    resolveWithExtensions fe resolved = (probeList resolved).find? fe := by
  have h1 := tryExts_eq_find fe resolved [".ts", ".tsx", ".js", ".jsx", ""]
  have h2 := tryIndexes_eq_find fe resolved [".ts", ".tsx", ".js", ".jsx"]
  have h3 := find?_append_cons fe
    [resolved ++ ".ts", resolved ++ ".tsx", resolved ++ ".js", resolved ++ ".jsx",
     resolved ++ ""]
    [pathJoin resolved "index.ts", pathJoin resolved "index.tsx",
     pathJoin resolved "index.js", pathJoin resolved "index.jsx"]
  simp only [List.map_cons, List.map_nil] at h1 h2
  rw [show ("index" ++ ".ts" : String) = "index.ts" from rfl,
      show ("index" ++ ".tsx" : String) = "index.tsx" from rfl,
      show ("index" ++ ".js" : String) = "index.js" from rfl,
      show ("index" ++ ".jsx" : String) = "index.jsx" from rfl] at h2
  simp only [resolveWithExtensions, h1, h2, probeList]
  rw [show ([resolved ++ ".ts", resolved ++ ".tsx", resolved ++ ".js",
      resolved ++ ".jsx", resolved ++ "", pathJoin resolved "index.ts",
      pathJoin resolved "index.tsx", pathJoin resolved "index.js",
      pathJoin resolved "index.jsx"] : List String)
      = [resolved ++ ".ts", resolved ++ ".tsx", resolved ++ ".js",
         resolved ++ ".jsx", resolved ++ ""] ++
        [pathJoin resolved "index.ts", pathJoin resolved "index.tsx",
         pathJoin resolved "index.js", pathJoin resolved "index.jsx"] from rfl]
  rw [h3]
  cases List.find? fe [resolved ++ ".ts", resolved ++ ".tsx", resolved ++ ".js",
      resolved ++ ".jsx", resolved ++ ""] <;>
    cases hY : List.find? fe [pathJoin resolved "index.ts",
      pathJoin resolved "index.tsx", pathJoin resolved "index.js",
      pathJoin resolved "index.jsx"] <;> simp [hY]

/-- Claim **C5 counterexample.** The claim says the bare candidate is probed
first; the code probes `.ts` first and the bare candidate only through the
trailing empty extension.  With both `/p/foo` and `/p/foo.ts` existing, the
code resolves to `/p/foo.ts` while the order the claim describes would
resolve to `/p/foo`. -/
theorem C5_counterexample :
    resolveWithExtensions feBoth "/p/foo" = some "/p/foo.ts" ∧
    resolveWithExtensionsClaimed feBoth "/p/foo" = some "/p/foo" ∧
    ("/p/foo.ts" : String) ≠ "/p/foo" := by
  refine ⟨by decide, by decide, by decide⟩

/-! ## C8: extraction cache behaviour -/

/-- Claim **C8.** A read failure during extraction (no open document, disk read
throws) stores the empty reference set in the cache under the file's path
and surfaces no error; a populated cache entry is returned unchanged — with
the whole instance state untouched, so the read is never retried — until
`clearCache` empties the cache. -/
theorem C8_cache_behaviour (env : Env) (st : St) (p : String) :
    (∀ v, alGet st.importCache p = some v → extractImports env st p = (v, st)) ∧
    (alGet st.importCache p = none → env.openDoc p = none → env.readFile p = none →
      extractImports env st p
        = ([], { st with importCache := alSet st.importCache p [] })) ∧
    (clearCache st).importCache = [] := by
  refine ⟨?_, ?_, rfl⟩
  · intro v hv
    simp [extractImports, hv]
  · intro hc ho hr
    simp [extractImports, hc, ho, hr]

/-- Witness for C8: the populated entry for `/x.ts` is returned with the
state unchanged, and the failing read of `/z.ts` caches the empty set. -/
theorem C8_cache_behaviour_witness :
    extractImports envNoRead stCached "/x.ts" = (["/y.ts"], stCached) ∧
    extractImports envNoRead stCached "/z.ts"
      = ([], { stCached with
                importCache := alSet stCached.importCache "/z.ts" [] }) :=
  ⟨(C8_cache_behaviour envNoRead stCached "/x.ts").1 ["/y.ts"] (by decide),
   (C8_cache_behaviour envNoRead stCached "/z.ts").2.1 (by decide) rfl rfl⟩

/-! ## C4: the tie-break is the host collation, not code-point order -/

theorem tabCompare_le_iff (lc : String → String → Int)
    (scores : List (String × Nat)) (a b : Tab) :
    tabCompare lc scores a b ≤ 0 ↔
      match getTabPath a, getTabPath b with
      | none, none => True
      | none, some _ => False
      | some _, none => True
      | some pa, some pb =>
        (alGet scores pa).getD 0 < (alGet scores pb).getD 0 ∨
        ((alGet scores pa).getD 0 = (alGet scores pb).getD 0 ∧ lc pa pb ≤ 0) := by
  cases ha : getTabPath a <;> cases hb : getTabPath b
  · simp [tabCompare, ha, hb]
  · simp [tabCompare, ha, hb]
  · simp [tabCompare, ha, hb]
  · rename_i pa pb
    simp only [tabCompare, ha, hb]
    by_cases hd : (alGet scores pa).getD 0 = (alGet scores pb).getD 0
    · rw [if_neg (not_not_intro hd)]
      simp [hd]
    · rw [if_pos hd]
      constructor
      · intro h
        exact Or.inl (by omega)
      · intro h
        rcases h with h | h
        · omega
        · exact absurd h.1 hd

theorem tabCompare_total (lc : String → String → Int)
    (scores : List (String × Nat))
    (htot : ∀ x y, lc x y ≤ 0 ∨ lc y x ≤ 0) (a b : Tab) :
    tabCompare lc scores a b ≤ 0 ∨ tabCompare lc scores b a ≤ 0 := by
  rw [tabCompare_le_iff, tabCompare_le_iff]
  cases ha : getTabPath a <;> cases hb : getTabPath b <;> simp
  rename_i pa pb
  by_cases hd : (alGet scores pa).getD 0 = (alGet scores pb).getD 0
  · rcases htot pa pb with h | h
    · exact Or.inl (Or.inr ⟨hd, h⟩)
    · exact Or.inr (Or.inr ⟨hd.symm, h⟩)
  · rcases Nat.lt_or_ge ((alGet scores pa).getD 0) ((alGet scores pb).getD 0) with h | h
    · exact Or.inl (Or.inl h)
    · exact Or.inr (Or.inl (by omega))

theorem tabCompare_trans (lc : String → String → Int)
    (scores : List (String × Nat))
    (htr : ∀ x y z, lc x y ≤ 0 → lc y z ≤ 0 → lc x z ≤ 0) (a b c : Tab)
    (hab : tabCompare lc scores a b ≤ 0) (hbc : tabCompare lc scores b c ≤ 0) :
    tabCompare lc scores a c ≤ 0 := by
  rw [tabCompare_le_iff] at hab hbc ⊢
  cases ha : getTabPath a <;> cases hb : getTabPath b <;> cases hc : getTabPath c
  all_goals simp only [ha, hb, hc] at hab hbc ⊢
  rename_i pa pb pc
  rcases hab with h₁ | ⟨h₁, h₁'⟩ <;> rcases hbc with h₂ | ⟨h₂, h₂'⟩
  · exact Or.inl (by omega)
  · exact Or.inl (by omega)
  · exact Or.inl (by omega)
  · exact Or.inr ⟨by omega, htr pa pb pc h₁' h₂'⟩

/-- Claim **C4 (amended).** Provided the host collation is a total preorder, the
sorted output is ordered so that any two tabs with resolvable paths and
equal depth scores appear in ascending order of the host's `localeCompare`
collation — the locale-aware comparison the code actually calls, which
coincides with plain code-point order only when the host collation does. -/
theorem C4_tiebreak_is_localeCompare (env : Env) (st : St) (tabs : List Tab)
    (htot : ∀ x y, env.localeCompare x y ≤ 0 ∨ env.localeCompare y x ≤ 0)
    (htr : ∀ x y z, env.localeCompare x y ≤ 0 → env.localeCompare y z ≤ 0 →
      env.localeCompare x z ≤ 0) :
    (sortRun env st tabs).1.Pairwise
      (fun a b => ∀ pa pb, getTabPath a = some pa → getTabPath b = some pb →
        (alGet (sortScores env st tabs) pa).getD 0
          = (alGet (sortScores env st tabs) pb).getD 0 →
        env.localeCompare pa pb ≤ 0) := by
  show (tabs.insertionSort
      (fun a b => tabCompare env.localeCompare (sortScores env st tabs) a b ≤ 0)).Pairwise _
  letI : IsTotal Tab
      (fun a b => tabCompare env.localeCompare (sortScores env st tabs) a b ≤ 0) :=
    ⟨tabCompare_total env.localeCompare (sortScores env st tabs) htot⟩
  letI : IsTrans Tab
      (fun a b => tabCompare env.localeCompare (sortScores env st tabs) a b ≤ 0) :=
    ⟨tabCompare_trans env.localeCompare (sortScores env st tabs) htr⟩
  have hs := List.sorted_insertionSort
    (fun a b => tabCompare env.localeCompare (sortScores env st tabs) a b ≤ 0) tabs
  refine hs.imp ?_
  intro a b hr pa pb ha hb hd
  rw [tabCompare_le_iff] at hr
  rw [ha, hb] at hr
  rcases hr with h | h
  · omega
  · exact h.2

/-- Witness for the amended C4 at the trivial (everywhere-equal) collation
and two concrete path-bearing tabs. -/
theorem C4_tiebreak_is_localeCompare_witness :
    ((sortRun envNoRead St.init [⟨1, some "/b.ts"⟩, ⟨2, some "/a.ts"⟩]).1).Pairwise
      (fun a b => ∀ pa pb, getTabPath a = some pa → getTabPath b = some pb →
        (alGet (sortScores envNoRead St.init
            [⟨1, some "/b.ts"⟩, ⟨2, some "/a.ts"⟩]) pa).getD 0
          = (alGet (sortScores envNoRead St.init
            [⟨1, some "/b.ts"⟩, ⟨2, some "/a.ts"⟩]) pb).getD 0 →
        envNoRead.localeCompare pa pb ≤ 0) :=
  C4_tiebreak_is_localeCompare envNoRead St.init
    [⟨1, some "/b.ts"⟩, ⟨2, some "/a.ts"⟩]
    (fun _ _ => Or.inl (le_refl 0)) (fun _ _ _ _ _ => le_refl 0)

/-- Claim **C4 counterexample.** Two tabs `/B.ts` and `/a.ts` with equal depth 0:
under the host's locale-aware collation (which orders "a" before "B", as
Node's default `localeCompare` does) the sort outputs `/a.ts` first, yet
plain code-point comparison orders `/B.ts` strictly first — so ties are not
broken by code-point order. -/
theorem C4_counterexample :
    (sortRun envIcu St.init [⟨1, some "/B.ts"⟩, ⟨2, some "/a.ts"⟩]).1
      = [⟨2, some "/a.ts"⟩, ⟨1, some "/B.ts"⟩] ∧
    alGet (sortScores envIcu St.init [⟨1, some "/B.ts"⟩, ⟨2, some "/a.ts"⟩])
      "/B.ts" = some 0 ∧
    alGet (sortScores envIcu St.init [⟨1, some "/B.ts"⟩, ⟨2, some "/a.ts"⟩])
      "/a.ts" = some 0 ∧
    cpCompare "/B.ts" "/a.ts" < 0 := by
  refine ⟨by decide, by decide, by decide, by decide⟩

/-! ## C7: alias-table loading -/

theorem loadLoop_skip (env : Env) (root c : String)
    (h : skipsConfig env root c) (rest : List String) (st : St) :
    loadLoop env root (c :: rest) st = loadLoop env root rest st := by
  simp only [loadLoop]
  by_cases hfe : env.fileExists (pathJoin root c) = true
  · rcases h with h | h | ⟨content, hr, hp⟩ | ⟨content, opts, hr, hp, hpe⟩
    · rw [hfe] at h
      cases h
    · simp [hfe, h]
    · simp [hfe, hr, hp]
    · simp [hfe, hr, hp, hpe]
  · simp [Bool.not_eq_true] at hfe
    simp [hfe]

theorem loadLoop_accept (env : Env) (root c : String) (opts : CompilerOpts)
    (h : acceptsConfig env root c opts) (rest : List String) (st : St) :
    loadLoop env root (c :: rest) st
      = { st with pathAliases := some (aliasesOfPaths opts.paths)
                  baseUrl := some (configBase root opts) } := by
  obtain ⟨hfe, content, hr, hp, hne⟩ := h
  simp only [loadLoop]
  simp only [hfe, if_true, hr, hp, if_neg hne]
  rfl

theorem loadLoop_all_skip (env : Env) (root : String) :
    ∀ (fs : List String) (st : St), (∀ c ∈ fs, skipsConfig env root c) →
      loadLoop env root fs st = st := by
  intro fs
  induction fs with
  | nil => intro st _; rfl
  | cons c rest ih =>
    intro st h
    rw [loadLoop_skip env root c (h c (List.mem_cons_self _ _))]
    exact ih st fun c' hc' => h c' (List.mem_cons_of_mem _ hc')

theorem loadLoop_skip_front (env : Env) (root : String) :
    ∀ (fs₁ rest : List String) (st : St), (∀ c ∈ fs₁, skipsConfig env root c) →
      loadLoop env root (fs₁ ++ rest) st = loadLoop env root rest st := by
  intro fs₁
  induction fs₁ with
  | nil => intro rest st _; rfl
  | cons c fs ih =>
    intro rest st h
    rw [List.cons_append, loadLoop_skip env root c (h c (List.mem_cons_self _ _))]
    exact ih rest st fun c' hc' => h c' (List.mem_cons_of_mem _ hc')

/-- Claim **C7 (amended).** With an unloaded table and a workspace root: a
candidate configuration file that is missing, unreadable, malformed, or
declares no `paths` entries is silently skipped and scanning proceeds in
order; scanning stops at the first candidate that declares a NON-EMPTY
`paths` object — even when none of its entries carries a usable (non-empty
array) target, so the resulting alias map may still be empty; if every
candidate is skipped the table is left loaded-but-empty; and once
`pathAliases` is non-null the loader is a no-op until `clearCache` resets
it to null. -/
theorem C7_alias_loading (env : Env) (st : St) (root : String)
    (hroot : env.workspaceRoot = some root) (hun : st.pathAliases = none) :
    (∀ fs₁ c fs₂ opts, env.aliasConfigFiles = fs₁ ++ c :: fs₂ →
      (∀ c' ∈ fs₁, skipsConfig env root c') → acceptsConfig env root c opts →
      loadPathAliases env st
        = { st with pathAliases := some (aliasesOfPaths opts.paths)
                    baseUrl := some (configBase root opts) }) ∧
    ((∀ c ∈ env.aliasConfigFiles, skipsConfig env root c) →
      loadPathAliases env st = { st with pathAliases := some [] }) ∧
    (∀ st' : St, st'.pathAliases ≠ none → loadPathAliases env st' = st') ∧
    (clearCache st).pathAliases = none := by
  have hload : loadPathAliases env st
      = loadLoop env root env.aliasConfigFiles { st with pathAliases := some [] } := by
    simp only [loadPathAliases, hun, hroot]
  refine ⟨?_, ?_, ?_, rfl⟩
  · intro fs₁ c fs₂ opts hsplit hskips haccept
    rw [hload, hsplit, loadLoop_skip_front env root fs₁ (c :: fs₂) _ hskips,
      loadLoop_accept env root c opts haccept]
  · intro hall
    rw [hload, loadLoop_all_skip env root _ _ hall]
  · intro st' h
    match hpa : st'.pathAliases with
    | some a => simp only [loadPathAliases, hpa]
    | none => exact absurd hpa h

/-- Witness for C7: the missing first candidate is skipped and the second
loads the wildcard-stripped alias with the workspace root as base. -/
theorem C7_alias_loading_witness :
    loadPathAliases envAlias St.init
      = { St.init with pathAliases := some [("@", "src")]
                       baseUrl := some "/ws" } := by
  have h := (C7_alias_loading envAlias St.init "/ws" rfl rfl).1
    ["a.json"] "b.json" [] ⟨none, [("@/*", .arr ["src/*"])]⟩ rfl
    (by
      intro c' hc'
      simp only [List.mem_singleton] at hc'
      subst hc'
      exact Or.inl (by decide))
    ⟨by decide, "B", by decide, by decide, by decide⟩
  rw [h]
  decide

/-- Claim **C7 counterexample.** The first candidate parses and declares a
non-empty `paths` object whose only target is not an array, yielding an
EMPTY alias map — yet the loader stops there, ignoring the second candidate
whose alias map would be non-empty.  The claim says scanning stops only at
a candidate that yields a non-empty alias map (so here it would have to
load `@ -> src` from the second candidate), and that the table stays empty
only when every candidate fails or has no aliases. -/
theorem C7_counterexample :
    (loadPathAliases envAliasStop St.init).pathAliases = some [] ∧
    (loadPathAliases envAliasStopB St.init).pathAliases = some [("@", "src")] ∧
    (some ([] : List (String × String)) ≠ some [("@", "src")]) := by
  refine ⟨by decide, by decide, by decide⟩

/-! ## Score-calculator lemmas: the in-degree counting pass -/

theorem fmLoop_mem (r : String) :
    ∀ (l : List String) (b : Option String) (bl : Nat) (m : String),
      fmLoop r l b bl = some m → b = some m ∨ m ∈ l := by
  intro l
  induction l with
  | nil =>
    intro b bl m h
    exact Or.inl h
  | cons u rest ih =>
    intro b bl m h
    simp only [fmLoop] at h
    split at h
    · rcases ih _ _ _ h with h' | h'
      · exact Or.inr (List.mem_cons.mpr (Or.inl (by injection h'.symm)))
      · exact Or.inr (List.mem_cons_of_mem _ h')
    · rcases ih _ _ _ h with h' | h'
      · exact Or.inl h'
      · exact Or.inr (List.mem_cons_of_mem _ h')

theorem findMatchingTabPath_mem {i : String} {tps : List String} {m : String}
    (h : findMatchingTabPath i tps = some m) : m ∈ tps := by
  unfold findMatchingTabPath at h
  split at h
  · rename_i hmem
    injection h with h'
    exact h' ▸ hmem
  · rcases fmLoop_mem i tps none 0 m h with h' | h'
    · cases h'
    · exact h'

theorem initCounts_mem (tps : List String) (p : String) (hp : p ∈ tps) :
    alGet (initCounts tps) p = some 0 := by
  unfold initCounts
  have : ∀ (l : List String) (acc : List (String × Int)),
      (p ∈ l ∨ alGet acc p = some 0) →
      alGet (l.foldl (fun c q => alSet c q 0) acc) p = some 0 := by
    intro l
    induction l with
    | nil =>
      intro acc h
      rcases h with h | h
      · cases h
      · exact h
    | cons q rest ih =>
      intro acc h
      simp only [List.foldl_cons]
      by_cases hq : q = p
      · subst hq
        exact ih _ (Or.inr (alGet_alSet_self _ _ _))
      · rcases h with h | h
        · rcases List.mem_cons.mp h with h' | h'
          · exact absurd h'.symm hq
          · exact ih _ (Or.inl h')
        · refine ih _ (Or.inr ?_)
          rw [alGet_alSet_ne _ _ _ _ hq]
          exact h
  exact this tps [] (Or.inl hp)

/-- One resolved import adds 1 to `p`'s count exactly when the matcher sends
it to `p`. -/
theorem incEdge_counts (tps : List String) (p : String)
    (acc : List (String × String) × List (String × Int)) (i : String) (c : Int)
    (h : alGet acc.2 p = some c) :
    alGet (incEdge tps acc i).2 p
      = some (c + if findMatchingTabPath i tps == some p then 1 else 0) := by
  unfold incEdge
  cases hm : findMatchingTabPath i tps with
  | none =>
    simp only [hm]
    simpa using h
  | some m =>
    simp only [hm]
    by_cases hmp : m = p
    · subst hmp
      rw [alGet_alSet_self, h]
      simp
    · rw [alGet_alSet_ne _ _ _ _ hmp, h]
      have hf : (some m == some p) = false := by simp [hmp]
      rw [hf]
      simp

theorem foldl_incEdge_counts (tps : List String) (p : String) :
    ∀ (imps : List String) (acc : List (String × String) × List (String × Int))
      (c : Int), alGet acc.2 p = some c →
      alGet (imps.foldl (incEdge tps) acc).2 p
        = some (c + (imps.countP fun i => findMatchingTabPath i tps == some p)) := by
  intro imps
  induction imps with
  | nil =>
    intro acc c h
    simpa using h
  | cons i rest ih =>
    intro acc c h
    simp only [List.foldl_cons, List.countP_cons]
    have h1 := incEdge_counts tps p acc i c h
    have h2 := ih (incEdge tps acc i) _ h1
    rw [h2]
    by_cases hi : (findMatchingTabPath i tps == some p) = true
    · simp only [hi, if_true]
      congr 1
      push_cast
      ring
    · rw [Bool.not_eq_true] at hi
      simp only [hi, if_false]
      congr 1
      push_cast
      ring

theorem buildIncoming_counts (g : List (String × List String))
    (tps : List String) (p : String) (hp : p ∈ tps) :
    alGet (buildIncoming g tps).2 p = some (matchedInDeg g tps p) := by
  unfold buildIncoming matchedInDeg
  have : ∀ (l : List (String × List String))
      (acc : List (String × String) × List (String × Int)) (c : Int),
      alGet acc.2 p = some c →
      alGet (l.foldl (incEntry tps) acc).2 p
        = some (c + ((l.map fun e =>
            e.2.countP fun i => findMatchingTabPath i tps == some p).sum : Nat)) := by
    intro l
    induction l with
    | nil =>
      intro acc c h
      simpa using h
    | cons e rest ih =>
      intro acc c h
      simp only [List.foldl_cons, List.map_cons, List.sum_cons]
      rw [show incEntry tps acc e = e.2.foldl (incEdge tps) acc from rfl]
      have h1 := foldl_incEdge_counts tps p e.2 acc c h
      have h2 := ih _ _ h1
      rw [h2]
      congr 1
      push_cast
      ring
  have h0 := initCounts_mem tps p hp
  have := this g ([], initCounts tps) 0 h0
  rw [this]
  simp

/-- Every binding of `resolvedToTabPath` agrees with the matcher. -/
theorem buildIncoming_rtt_match (g : List (String × List String))
    (tps : List String) :
    ∀ i m, alGet (buildIncoming g tps).1 i = some m →
      findMatchingTabPath i tps = some m := by
  unfold buildIncoming
  have inner : ∀ (imps : List String)
      (acc : List (String × String) × List (String × Int)),
      (∀ i m, alGet acc.1 i = some m → findMatchingTabPath i tps = some m) →
      ∀ i m, alGet (imps.foldl (incEdge tps) acc).1 i = some m →
        findMatchingTabPath i tps = some m := by
    intro imps
    induction imps with
    | nil => intro acc h; exact h
    | cons j rest ih =>
      intro acc h
      simp only [List.foldl_cons]
      refine ih _ ?_
      intro i m hm
      unfold incEdge at hm
      cases hj : findMatchingTabPath j tps with
      | none =>
        rw [hj] at hm
        exact h i m hm
      | some mj =>
        rw [hj] at hm
        simp only at hm
        by_cases hij : j = i
        · subst hij
          rw [alGet_alSet_self] at hm
          injection hm with hm'
          rw [hj, hm']
        · rw [alGet_alSet_ne _ _ _ _ hij] at hm
          exact h i m hm
  have outer : ∀ (l : List (String × List String))
      (acc : List (String × String) × List (String × Int)),
      (∀ i m, alGet acc.1 i = some m → findMatchingTabPath i tps = some m) →
      ∀ i m, alGet (l.foldl (incEntry tps) acc).1 i = some m →
        findMatchingTabPath i tps = some m := by
    intro l
    induction l with
    | nil => intro acc h; exact h
    | cons e rest ih =>
      intro acc h
      simp only [List.foldl_cons]
      exact ih _ (inner e.2 acc h)
  exact outer g ([], initCounts tps) (by intro i m h; cases h)

/-- Every binding of `resolvedToTabPath` stems from some graph entry's set
of resolved imports. -/
theorem buildIncoming_rtt_src (g : List (String × List String))
    (tps : List String) :
    ∀ i m, alGet (buildIncoming g tps).1 i = some m →
      ∃ e ∈ g, i ∈ e.2 := by
  unfold buildIncoming
  have inner : ∀ (imps : List String)
      (acc : List (String × String) × List (String × Int)) (i m : String),
      alGet (imps.foldl (incEdge tps) acc).1 i = some m →
      alGet acc.1 i = some m ∨ i ∈ imps := by
    intro imps
    induction imps with
    | nil =>
      intro acc i m h
      exact Or.inl h
    | cons j rest ih =>
      intro acc i m h
      simp only [List.foldl_cons] at h
      rcases ih _ _ _ h with h' | h'
      · unfold incEdge at h'
        cases hj : findMatchingTabPath j tps with
        | none =>
          rw [hj] at h'
          exact Or.inl h'
        | some mj =>
          rw [hj] at h'
          simp only at h'
          by_cases hij : j = i
          · subst hij
            exact Or.inr (List.mem_cons_self _ _)
          · rw [alGet_alSet_ne _ _ _ _ hij] at h'
            exact Or.inl h'
      · exact Or.inr (List.mem_cons_of_mem _ h')
  have outer : ∀ (l : List (String × List String))
      (acc : List (String × String) × List (String × Int)) (i m : String),
      alGet (l.foldl (incEntry tps) acc).1 i = some m →
      alGet acc.1 i = some m ∨ ∃ e ∈ l, i ∈ e.2 := by
    intro l
    induction l with
    | nil =>
      intro acc i m h
      exact Or.inl h
    | cons e rest ih =>
      intro acc i m h
      simp only [List.foldl_cons] at h
      rcases ih _ _ _ h with h' | ⟨e', he', hie'⟩
      · rcases inner e.2 acc i m h' with h'' | h''
        · exact Or.inl h''
        · exact Or.inr ⟨e, List.mem_cons_self _ _, h''⟩
      · exact Or.inr ⟨e', List.mem_cons_of_mem _ he', hie'⟩
  intro i m h
  rcases outer g ([], initCounts tps) i m h with h' | h'
  · cases h'
  · exact h'

/-- A resolved path known to `resolvedToTabPath` maps to a tab with at least
one matched incoming edge. -/
theorem rtt_target_pos (g : List (String × List String)) (tps : List String)
    (i m : String) (h : alGet (buildIncoming g tps).1 i = some m) :
    1 ≤ matchedInDeg g tps m := by
  have hm := buildIncoming_rtt_match g tps i m h
  obtain ⟨e, he, hie⟩ := buildIncoming_rtt_src g tps i m h
  have hee : (e.1, e.2) ∈ g := by
    rw [Prod.mk.eta]
    exact he
  exact matchedInDeg_pos hee hie hm

/-! ## Key-uniqueness of the built maps and seed-phase lemmas -/

theorem alSet_keys_sub {α : Type} :
    ∀ (l : List (String × α)) (k : String) (v : α) (q : String),
      q ∈ (alSet l k v).map Prod.fst → q ∈ l.map Prod.fst ∨ q = k := by
  intro l
  induction l with
  | nil =>
    intro k v q h
    simp [alSet] at h
    exact Or.inr h
  | cons hd tl ih =>
    intro k v q h
    obtain ⟨k', v'⟩ := hd
    by_cases hk : k' = k
    · subst hk
      have he : alSet ((k', v') :: tl) k' v = (k', v) :: tl := by simp [alSet]
      rw [he] at h
      simp only [List.map_cons, List.mem_cons] at h
      rcases h with h | h
      · exact Or.inr h
      · exact Or.inl (List.mem_cons.mpr (Or.inr h))
    · simp only [alSet, if_neg hk, List.map_cons, List.mem_cons] at h
      rcases h with h | h
      · exact Or.inl (List.mem_cons.mpr (Or.inl h))
      · rcases ih k v q h with h' | h'
        · exact Or.inl (List.mem_cons.mpr (Or.inr h'))
        · exact Or.inr h'

theorem alSet_keys_nodup {α : Type} :
    ∀ (l : List (String × α)) (k : String) (v : α),
      (l.map Prod.fst).Nodup → ((alSet l k v).map Prod.fst).Nodup := by
  intro l
  induction l with
  | nil =>
    intro k v _
    simp [alSet]
  | cons hd tl ih =>
    intro k v h
    obtain ⟨k', v'⟩ := hd
    simp only [List.map_cons, List.nodup_cons] at h
    by_cases hk : k' = k
    · subst hk
      have he : alSet ((k', v') :: tl) k' v = (k', v) :: tl := by simp [alSet]
      rw [he]
      simp only [List.map_cons, List.nodup_cons]
      exact h
    · simp only [alSet, if_neg hk, List.map_cons, List.nodup_cons]
      refine ⟨?_, ih k v h.2⟩
      intro hmem
      rcases alSet_keys_sub tl k v k' hmem with h' | h'
      · exact h.1 h'
      · exact hk h'

theorem initCounts_keys_nodup (tps : List String) :
    ((initCounts tps).map Prod.fst).Nodup := by
  unfold initCounts
  have : ∀ (l : List String) (acc : List (String × Int)),
      (acc.map Prod.fst).Nodup →
      ((l.foldl (fun c q => alSet c q 0) acc).map Prod.fst).Nodup := by
    intro l
    induction l with
    | nil => intro acc h; exact h
    | cons q rest ih =>
      intro acc h
      exact ih _ (alSet_keys_nodup acc q 0 h)
  exact this tps [] (by simp)

theorem buildIncoming_counts_keys_nodup (g : List (String × List String))
    (tps : List String) :
    (((buildIncoming g tps).2).map Prod.fst).Nodup := by
  unfold buildIncoming
  have inner : ∀ (imps : List String)
      (acc : List (String × String) × List (String × Int)),
      (acc.2.map Prod.fst).Nodup →
      (((imps.foldl (incEdge tps) acc).2).map Prod.fst).Nodup := by
    intro imps
    induction imps with
    | nil => intro acc h; exact h
    | cons i rest ih =>
      intro acc h
      refine ih _ ?_
      unfold incEdge
      cases hi : findMatchingTabPath i tps with
      | none => exact h
      | some m => exact alSet_keys_nodup _ _ _ h
  have outer : ∀ (l : List (String × List String))
      (acc : List (String × String) × List (String × Int)),
      (acc.2.map Prod.fst).Nodup →
      (((l.foldl (incEntry tps) acc).2).map Prod.fst).Nodup := by
    intro l
    induction l with
    | nil => intro acc h; exact h
    | cons e rest ih =>
      intro acc h
      exact ih _ (inner e.2 acc h)
  exact outer g _ (initCounts_keys_nodup tps)

theorem mem_alGet_of_nodup {α : Type} :
    ∀ (l : List (String × α)) (k : String) (v : α),
      (l.map Prod.fst).Nodup → (k, v) ∈ l → alGet l k = some v := by
  intro l
  induction l with
  | nil =>
    intro k v _ h
    cases h
  | cons hd tl ih =>
    intro k v hnd h
    obtain ⟨k', v'⟩ := hd
    simp only [List.map_cons, List.nodup_cons] at hnd
    rcases List.mem_cons.mp h with h' | h'
    · cases h'
      simp [alGet]
    · have hk : k' ≠ k := by
        intro he
        subst he
        exact hnd.1 (List.mem_map_of_mem Prod.fst h')
      simp only [alGet, if_neg hk]
      exact ih k v hnd.2 h'

/-- Seeded depth values are all 0. -/
theorem seedPhase_values_zero (counts : List (String × Int)) :
    ∀ q d, alGet (seedPhase counts).2 q = some d → d = 0 := by
  unfold seedPhase
  have : ∀ (l : List (String × Int)) (acc : List String × List (String × Nat)),
      (∀ q d, alGet acc.2 q = some d → d = 0) →
      ∀ q d, alGet (l.foldl
          (fun acc e => if e.2 = 0 then (acc.1 ++ [e.1], alSet acc.2 e.1 0) else acc)
          acc).2 q = some d → d = 0 := by
    intro l
    induction l with
    | nil => intro acc h; exact h
    | cons e rest ih =>
      intro acc h
      simp only [List.foldl_cons]
      split
      · refine ih _ ?_
        intro q d hq
        by_cases hqe : e.1 = q
        · subst hqe
          rw [alGet_alSet_self] at hq
          injection hq with h'
          exact h'.symm
        · rw [alGet_alSet_ne _ _ _ _ hqe] at hq
          exact h q d hq
      · exact ih _ h
  exact this counts ([], []) (by intro q d h; cases h)

/-- A path whose count is 0 ends up seeded at depth 0. -/
theorem seedPhase_zero (counts : List (String × Int)) (p : String)
    (h : alGet counts p = some 0) :
    alGet (seedPhase counts).2 p = some 0 := by
  unfold seedPhase
  have key : ∀ (l : List (String × Int)) (acc : List String × List (String × Nat)),
      ((p, (0 : Int)) ∈ l ∨ alGet acc.2 p = some 0) →
      alGet (l.foldl
          (fun acc e => if e.2 = 0 then (acc.1 ++ [e.1], alSet acc.2 e.1 0) else acc)
          acc).2 p = some 0 := by
    intro l
    induction l with
    | nil =>
      intro acc h'
      rcases h' with h' | h'
      · cases h'
      · exact h'
    | cons e rest ih =>
      intro acc h'
      simp only [List.foldl_cons]
      rcases h' with h' | h'
      · rcases List.mem_cons.mp h' with he | he
        · rw [← he]
          simp only [if_pos rfl]
          exact ih _ (Or.inr (alGet_alSet_self _ _ _))
        · split
          · refine ih _ ?_
            by_cases hqe : e.1 = p
            · subst hqe
              exact Or.inr (alGet_alSet_self _ _ _)
            · exact Or.inl he
          · exact ih _ (Or.inl he)
      · split
        · refine ih _ (Or.inr ?_)
          by_cases hqe : e.1 = p
          · subst hqe
            exact alGet_alSet_self _ _ _
          · rw [alGet_alSet_ne _ _ _ _ hqe]
            exact h'
        · exact ih _ (Or.inr h')
  exact key counts ([], []) (Or.inl (alGet_mem h))

/-- A path whose only count entries are non-zero is neither queued nor
assigned a depth by the seeding phase. -/
theorem seedPhase_nonzero (counts : List (String × Int)) (p : String)
    (h : ∀ c, (p, c) ∈ counts → c ≠ 0) :
    alGet (seedPhase counts).2 p = none ∧ p ∉ (seedPhase counts).1 := by
  unfold seedPhase
  have key : ∀ (l : List (String × Int)) (acc : List String × List (String × Nat)),
      (∀ c, (p, c) ∈ l → c ≠ 0) →
      alGet acc.2 p = none → p ∉ acc.1 →
      alGet (l.foldl
          (fun acc e => if e.2 = 0 then (acc.1 ++ [e.1], alSet acc.2 e.1 0) else acc)
          acc).2 p = none ∧
      p ∉ (l.foldl
          (fun acc e => if e.2 = 0 then (acc.1 ++ [e.1], alSet acc.2 e.1 0) else acc)
          acc).1 := by
    intro l
    induction l with
    | nil =>
      intro acc _ h2 h3
      exact ⟨h2, h3⟩
    | cons e rest ih =>
      intro acc h1 h2 h3
      simp only [List.foldl_cons]
      by_cases hez : e.2 = 0
      · have hep : e.1 ≠ p := by
          intro he
          refine h1 e.2 ?_ hez
          rw [← he, Prod.mk.eta]
          exact List.mem_cons_self _ _
        rw [if_pos hez]
        refine ih _ (fun c hc => h1 c (List.mem_cons_of_mem _ hc)) ?_ ?_
        · rw [alGet_alSet_ne _ _ _ _ hep]
          exact h2
        · simp only [List.mem_append, List.mem_singleton]
          rintro (h' | h')
          · exact h3 h'
          · exact hep h'.symm
      · rw [if_neg hez]
        exact ih _ (fun c hc => h1 c (List.mem_cons_of_mem _ hc)) h2 h3
  exact key counts ([], []) h (by rfl) (by simp)

/-! ## Kahn-loop invariants -/

theorem edgeStep_depthPos (rtt : List (String × String)) (d : Nat) (p : String)
    (s : KState) (i : String) (h : depthPosAt p s.depths) :
    depthPosAt p (edgeStep rtt d s i).depths := by
  unfold edgeStep
  cases hi : alGet rtt i with
  | none => exact h
  | some m =>
    simp only
    by_cases hmp : m = p
    · subst hmp
      right
      refine ⟨_, alGet_alSet_self _ _ _, ?_⟩
      omega
    · unfold depthPosAt
      rw [alGet_alSet_ne _ _ _ _ hmp]
      exact h

theorem foldl_edgeStep_depthPos (rtt : List (String × String)) (d : Nat)
    (p : String) :
    ∀ (imps : List String) (s : KState), depthPosAt p s.depths →
      depthPosAt p (imps.foldl (edgeStep rtt d) s).depths := by
  intro imps
  induction imps with
  | nil => intro s h; exact h
  | cons i rest ih =>
    intro s h
    exact ih _ (edgeStep_depthPos rtt d p s i h)

theorem kahnLoop_depthPos (g : List (String × List String))
    (rtt : List (String × String)) (p : String) :
    ∀ (fuel : Nat) (s : KState), depthPosAt p s.depths →
      depthPosAt p (kahnLoop g rtt fuel s).depths := by
  intro fuel
  induction fuel with
  | zero => intro s h; exact h
  | succ n ih =>
    intro s h
    simp only [kahnLoop]
    cases hq : s.queue with
    | nil => exact h
    | cons current rest =>
      exact ih _ (foldl_edgeStep_depthPos _ _ p _ _ h)

theorem edgeStep_depths_ne (rtt : List (String × String)) (d : Nat) (p : String)
    (s : KState) (i : String) (hne : ∀ m, alGet rtt i = some m → m ≠ p) :
    alGet (edgeStep rtt d s i).depths p = alGet s.depths p := by
  unfold edgeStep
  cases hi : alGet rtt i with
  | none => rfl
  | some m =>
    simp only
    exact alGet_alSet_ne _ _ _ _ (hne m hi)

theorem kahnLoop_depths_const (g : List (String × List String))
    (rtt : List (String × String)) (p : String)
    (hne : ∀ i m, alGet rtt i = some m → m ≠ p) :
    ∀ (fuel : Nat) (s : KState),
      alGet (kahnLoop g rtt fuel s).depths p = alGet s.depths p := by
  have hfold : ∀ (d : Nat) (imps : List String) (s : KState),
      alGet (imps.foldl (edgeStep rtt d) s).depths p = alGet s.depths p := by
    intro d imps
    induction imps with
    | nil => intro s; rfl
    | cons i rest ih =>
      intro s
      rw [List.foldl_cons, ih, edgeStep_depths_ne rtt d p s i (hne i)]
  intro fuel
  induction fuel with
  | zero => intro s; rfl
  | succ n ih =>
    intro s
    simp only [kahnLoop]
    cases hq : s.queue with
    | nil => rfl
    | cons current rest =>
      rw [ih, hfold]

theorem edgeStep_untouched (rtt : List (String × String)) (d : Nat) (p : String)
    (s : KState) (i : String) (hne : ∀ m, alGet rtt i = some m → m ≠ p)
    (h : untouchedAt p s) : untouchedAt p (edgeStep rtt d s i) := by
  obtain ⟨h1, h2, h3⟩ := h
  unfold edgeStep
  cases hi : alGet rtt i with
  | none => exact ⟨h1, h2, h3⟩
  | some m =>
    have hmp : m ≠ p := hne m hi
    have hmem : ∀ (b : Prop) (_ : Decidable b) (l : List String), p ∉ l →
        p ∉ (if b then l ++ [m] else l) := by
      intro b inst l hl
      by_cases hb : b
      · rw [if_pos hb]
        simp only [List.mem_append, List.mem_singleton]
        rintro (h' | h')
        · exact hl h'
        · exact hmp h'.symm
      · rw [if_neg hb]
        exact hl
    exact ⟨hmem _ _ _ h1, hmem _ _ _ h2,
      (alGet_alSet_ne _ _ _ _ hmp).trans h3⟩

theorem foldl_edgeStep_untouched (rtt : List (String × String)) (d : Nat)
    (p : String) :
    ∀ (imps : List String) (s : KState),
      (∀ i ∈ imps, ∀ m, alGet rtt i = some m → m ≠ p) →
      untouchedAt p s → untouchedAt p (imps.foldl (edgeStep rtt d) s) := by
  intro imps
  induction imps with
  | nil => intro s _ h; exact h
  | cons i rest ih =>
    intro s hsafe h
    refine ih _ (fun j hj => hsafe j (List.mem_cons_of_mem _ hj)) ?_
    exact edgeStep_untouched rtt d p s i (hsafe i (List.mem_cons_self _ _)) h

theorem kahnLoop_untouched (g : List (String × List String))
    (rtt : List (String × String)) (tps : List String) (p : String)
    (hrtt : ∀ i m, alGet rtt i = some m → findMatchingTabPath i tps = some m)
    (honly : ∀ e ∈ g, ∀ i ∈ e.2, findMatchingTabPath i tps = some p → e.1 = p) :
    ∀ (fuel : Nat) (s : KState), untouchedAt p s →
      untouchedAt p (kahnLoop g rtt fuel s) := by
  intro fuel
  induction fuel with
  | zero => intro s h; exact h
  | succ n ih =>
    intro s h
    simp only [kahnLoop]
    cases hq : s.queue with
    | nil => exact h
    | cons current rest =>
      have hcur : current ≠ p := by
        intro he
        exact h.1 (hq ▸ he ▸ List.mem_cons_self _ _)
      refine ih _ (foldl_edgeStep_untouched rtt _ p _ _ ?_ ?_)
      · intro i hi m hm hmp
        rw [hmp] at hm
        cases halg : alGet g current with
        | none =>
          rw [halg] at hi
          cases hi
        | some imps0 =>
          rw [halg] at hi
          exact hcur (honly (current, imps0) (alGet_mem halg) i hi (hrtt i p hm))
      · refine ⟨?_, h.2.1, h.2.2⟩
        have := h.1
        rw [hq] at this
        intro h'
        exact this (List.mem_cons_of_mem _ h')

/-! ## Sentinel-phase lemmas -/

theorem sentinel_fold_keep (v : Nat) (p : String) (d : Nat) :
    ∀ (l : List String) (dd : List (String × Nat)), alGet dd p = some d →
      alGet (l.foldl
        (fun dd' q => match alGet dd' q with
          | some _ => dd' | none => alSet dd' q v) dd) p = some d := by
  intro l
  induction l with
  | nil => intro dd h; exact h
  | cons q rest ih =>
    intro dd h
    simp only [List.foldl_cons]
    cases hq : alGet dd q with
    | some w => exact ih _ h
    | none =>
      refine ih _ ?_
      by_cases hqp : q = p
      · subst hqp
        rw [hq] at h
        cases h
      · rw [alGet_alSet_ne _ _ _ _ hqp]
        exact h

theorem sentinel_fold_assign (v : Nat) (p : String) :
    ∀ (l : List String) (dd : List (String × Nat)),
      (alGet dd p = some v ∨ (p ∈ l ∧ alGet dd p = none)) →
      alGet (l.foldl
        (fun dd' q => match alGet dd' q with
          | some _ => dd' | none => alSet dd' q v) dd) p = some v := by
  intro l
  induction l with
  | nil =>
    intro dd h
    rcases h with h | ⟨hm, _⟩
    · exact h
    · cases hm
  | cons q rest ih =>
    intro dd h
    simp only [List.foldl_cons]
    cases hq : alGet dd q with
    | some w =>
      rcases h with h | ⟨hm, hn⟩
      · exact ih _ (Or.inl h)
      · rcases List.mem_cons.mp hm with he | he
        · rw [he, hq] at hn
          cases hn
        · exact ih _ (Or.inr ⟨he, hn⟩)
    | none =>
      rcases h with h | ⟨hm, hn⟩
      · refine ih _ (Or.inl ?_)
        by_cases hqp : q = p
        · subst hqp
          rw [hq] at h
          cases h
        · rw [alGet_alSet_ne _ _ _ _ hqp]
          exact h
      · by_cases hqp : q = p
        · subst hqp
          exact ih _ (Or.inl (alGet_alSet_self _ _ _))
        · rcases List.mem_cons.mp hm with he | he
          · exact absurd he.symm hqp
          · refine ih _ (Or.inr ⟨he, ?_⟩)
            rw [alGet_alSet_ne _ _ _ _ hqp]
            exact hn

/-- A depth already assigned when the queue drains survives the sentinel
pass unchanged. -/
theorem sentinelPhase_keep (tps : List String) (depths : List (String × Nat))
    (p : String) (d : Nat) (h : alGet depths p = some d) :
    alGet (sentinelPhase tps depths) p = some d := by
  unfold sentinelPhase
  exact sentinel_fold_keep (maxDepths depths + 1) p d tps depths h

/-- A tab path with no assigned depth receives `maxDepth + 1` from the
sentinel pass. -/
theorem sentinelPhase_assign (tps : List String) (depths : List (String × Nat))
    (p : String) (hp : p ∈ tps) (h : alGet depths p = none) :
    alGet (sentinelPhase tps depths) p = some (maxDepths depths + 1) := by
  unfold sentinelPhase
  exact sentinel_fold_assign (maxDepths depths + 1) p tps depths (Or.inr ⟨hp, h⟩)

/-- With a non-zero matched in-degree, every `incomingCount` entry for `p`
is non-zero. -/
theorem counts_entry_ne_zero (g : List (String × List String))
    (tps : List String) (p : String) (hp : p ∈ tps)
    (hpos : matchedInDeg g tps p ≠ 0) :
    ∀ c : Int, (p, c) ∈ (buildIncoming g tps).2 → c ≠ 0 := by
  intro c hmem
  have hg := mem_alGet_of_nodup _ p c (buildIncoming_counts_keys_nodup g tps) hmem
  have hc := buildIncoming_counts g tps p hp
  rw [hg] at hc
  injection hc with hc'
  omega

/-! ## C2, C3, C10: depth properties of the score calculator -/

/-- Claim **C2 (amended).** For an open file path, the computed depth is exactly 0
iff the file has zero matched incoming edges — counting edges from EVERY
open file's resolved-and-matched import set, the file's own included; such
files are seeded at depth 0 and never raised. -/
theorem C2_depth_zero_iff_no_matched_incoming (g : List (String × List String))
    (tps : List String) (p : String) (hp : p ∈ tps) :
    alGet (calcScoresCore g tps) p = some 0 ↔ matchedInDeg g tps p = 0 := by
  simp only [calcScoresCore]
  constructor
  · intro h
    by_contra hne
    have hcnz := counts_entry_ne_zero g tps p hp hne
    have hseed := seedPhase_nonzero (buildIncoming g tps).2 p hcnz
    have hfin : depthPosAt p (runKahn g tps).depths := by
      simp only [runKahn]
      exact kahnLoop_depthPos g _ p _ _ (Or.inl hseed.1)
    rcases hfin with hnone | ⟨d, hd, hd1⟩
    · have hs := sentinelPhase_assign tps _ p hp hnone
      rw [hs] at h
      injection h with h'
      omega
    · have hs := sentinelPhase_keep tps _ p d hd
      rw [hs] at h
      injection h with h'
      omega
  · intro h
    have hc := buildIncoming_counts g tps p hp
    rw [h] at hc
    have hc0 : alGet (buildIncoming g tps).2 p = some 0 := by
      simpa using hc
    have hseed := seedPhase_zero (buildIncoming g tps).2 p hc0
    have hne : ∀ i m, alGet (buildIncoming g tps).1 i = some m → m ≠ p := by
      intro i m hm hcontra
      have hpos := rtt_target_pos g tps i m hm
      rw [hcontra, h] at hpos
      omega
    have hfin : alGet (runKahn g tps).depths p = some 0 := by
      simp only [runKahn]
      rw [kahnLoop_depths_const g _ p hne]
      exact hseed
    exact sentinelPhase_keep tps _ p 0 hfin

/-- Claim **C2 counterexample.** `/p/a.ts` has zero matched incoming edges from
OTHER open files (its only matched in-edge is its own self-import), yet its
depth is the cycle sentinel 1, not 0 — so "zero matched incoming edges" in
the sense of "no other open file targets it" does not imply depth 0. -/
theorem C2_counterexample :
    matchedInDegOthers gSelf tpsSelf "/p/a.ts" = 0 ∧
    alGet (calcScoresCore gSelf tpsSelf) "/p/a.ts" = some 1 ∧
    some (1 : Nat) ≠ some (0 : Nat) := by
  refine ⟨by decide, by decide, by decide⟩

/-- Witness for the amended C2 on a two-file chain: the importing root
`/a.ts` has no matched incoming edge and gets depth 0; the imported `/b.ts`
has one and does not. -/
theorem C2_depth_zero_iff_no_matched_incoming_witness :
    alGet (calcScoresCore [("/a.ts", ["/b.ts"]), ("/b.ts", [])]
      ["/a.ts", "/b.ts"]) "/a.ts" = some 0 ∧
    ¬ alGet (calcScoresCore [("/a.ts", ["/b.ts"]), ("/b.ts", [])]
      ["/a.ts", "/b.ts"]) "/b.ts" = some 0 :=
  ⟨(C2_depth_zero_iff_no_matched_incoming [("/a.ts", ["/b.ts"]), ("/b.ts", [])]
      ["/a.ts", "/b.ts"] "/a.ts" (by decide)).mpr (by decide),
   fun h =>
    by
      have := (C2_depth_zero_iff_no_matched_incoming
        [("/a.ts", ["/b.ts"]), ("/b.ts", [])]
        ["/a.ts", "/b.ts"] "/b.ts" (by decide)).mp h
      exact absurd this (by decide)⟩

/-- Claim **C3 (amended).** After the queue drains, every open file with NO
assigned depth is assigned `max(all assigned depths, default 0) + 1`, and
every file with an assigned depth keeps it — in particular, with exactly
two open files that each reference the other and nothing else, both receive
depth 1.  (The claim's "never enqueued" is wrong in general: a never-
enqueued partial-cycle member can still have been assigned a depth by a
predecessor and then keeps it.) -/
theorem C3_unassigned_get_sentinel (g : List (String × List String))
    (tps : List String) (p : String) (hp : p ∈ tps) :
    (alGet (runKahn g tps).depths p = none →
      alGet (calcScoresCore g tps) p
        = some (maxDepths (runKahn g tps).depths + 1)) ∧
    (∀ d, alGet (runKahn g tps).depths p = some d →
      alGet (calcScoresCore g tps) p = some d) := by
  constructor
  · intro h
    simp only [calcScoresCore]
    exact sentinelPhase_assign tps _ p hp h
  · intro d h
    simp only [calcScoresCore]
    exact sentinelPhase_keep tps _ p d h

/-- Witness for the amended C3 on the spec's two-cycle fixture: `/a.ts` and
`/b.ts` each reference the other and nothing else, neither is ever assigned
a depth by the traversal, and both receive depth `0 + 1 = 1`. -/
theorem C3_unassigned_get_sentinel_witness :
    alGet (calcScoresCore gCycle2 tpsCycle2) "/a.ts" = some 1 ∧
    alGet (calcScoresCore gCycle2 tpsCycle2) "/b.ts" = some 1 := by
  have ha := (C3_unassigned_get_sentinel gCycle2 tpsCycle2 "/a.ts" (by decide)).1
    (by decide)
  have hb := (C3_unassigned_get_sentinel gCycle2 tpsCycle2 "/b.ts" (by decide)).1
    (by decide)
  have hm : maxDepths (runKahn gCycle2 tpsCycle2).depths + 1 = 1 := by decide
  rw [hm] at ha hb
  exact ⟨ha, hb⟩

/-- Claim **C3 counterexample.** `/b.ts` participates in a cycle with `/c.ts` and
is never enqueued (the queue processes only `/a.ts` before draining), yet it
is NOT assigned `max(assigned depths) + 1 = 2`: its predecessor `/a.ts`
assigned it depth 1 during edge processing, and the sentinel pass skips any
file that already has a depth. -/
theorem C3_counterexample :
    (runKahn gPartial tpsPartial).queue = [] ∧
    (runKahn gPartial tpsPartial).enq = ["/a.ts"] ∧
    "/b.ts" ∉ (runKahn gPartial tpsPartial).enq ∧
    maxDepths (runKahn gPartial tpsPartial).depths + 1 = 2 ∧
    alGet (calcScoresCore gPartial tpsPartial) "/b.ts" = some 1 ∧
    some (1 : Nat) ≠ some (2 : Nat) := by
  refine ⟨by decide, by decide, by decide, by decide, by decide, by decide⟩

/-- Claim **C10.** A matched self-edge counts like any other.  First clause,
for EVERY open file with a matched self-edge — whether or not other open
files also import it: the self-edge makes the file's matched in-degree
positive, so the seeding pass neither queues the file nor assigns it depth
0 (it is excluded from the depth-0 seed set).  Second clause, when the
self-edge is the file's only matched incoming edge: the file is never
enqueued and receives the cycle sentinel
`max(assigned depths, default 0) + 1`. -/
theorem C10_self_edge_counts (g : List (String × List String))
    (tps : List String) (p : String) (hp : p ∈ tps)
    (hself : ∃ e ∈ g, e.1 = p ∧ ∃ i ∈ e.2, findMatchingTabPath i tps = some p) :
    (1 ≤ matchedInDeg g tps p ∧
     p ∉ (seedPhase (buildIncoming g tps).2).1 ∧
     alGet (seedPhase (buildIncoming g tps).2).2 p = none) ∧
    ((∀ e ∈ g, ∀ i ∈ e.2, findMatchingTabPath i tps = some p → e.1 = p) →
      p ∉ (runKahn g tps).enq ∧
      alGet (calcScoresCore g tps) p
        = some (maxDepths (runKahn g tps).depths + 1)) := by
  obtain ⟨e, he, _, i, hi, him⟩ := hself
  have hee : (e.1, e.2) ∈ g := by
    rw [Prod.mk.eta]
    exact he
  have hpos : 1 ≤ matchedInDeg g tps p := matchedInDeg_pos hee hi him
  have hcnz := counts_entry_ne_zero g tps p hp (by omega)
  have hseed := seedPhase_nonzero (buildIncoming g tps).2 p hcnz
  refine ⟨⟨hpos, hseed.2, hseed.1⟩, ?_⟩
  intro honly
  have huntouched : untouchedAt p (runKahn g tps) := by
    simp only [runKahn]
    exact kahnLoop_untouched g _ tps p (buildIncoming_rtt_match g tps) honly _ _
      ⟨hseed.2, hseed.2, hseed.1⟩
  refine ⟨huntouched.2.1, ?_⟩
  simp only [calcScoresCore]
  exact sentinelPhase_assign tps _ p hp huntouched.2.2

/-- Witness for C10 on two fixtures.  On the pure self-import fixture the
self-edge gives `/p/a.ts` in-degree 1, it is never enqueued, and it gets
depth `max(no assigned depths, 0) + 1`.  On the fixture where `/p/b.ts`
ALSO imports `/p/a.ts` (so the self-edge is not the only matched incoming
edge), the first clause still applies: `/p/a.ts` has positive in-degree and
is excluded from the depth-0 seed set. -/
theorem C10_self_edge_counts_witness :
    (1 ≤ matchedInDeg gSelf tpsSelf "/p/a.ts" ∧
     "/p/a.ts" ∉ (runKahn gSelf tpsSelf).enq ∧
     alGet (calcScoresCore gSelf tpsSelf) "/p/a.ts"
       = some (maxDepths (runKahn gSelf tpsSelf).depths + 1)) ∧
    (1 ≤ matchedInDeg gSelfExt tpsSelfExt "/p/a.ts" ∧
     "/p/a.ts" ∉ (seedPhase (buildIncoming gSelfExt tpsSelfExt).2).1 ∧
     alGet (seedPhase (buildIncoming gSelfExt tpsSelfExt).2).2 "/p/a.ts"
       = none) := by
  have h1 := C10_self_edge_counts gSelf tpsSelf "/p/a.ts" (by decide) (by decide)
  have h2 := C10_self_edge_counts gSelfExt tpsSelfExt "/p/a.ts" (by decide)
    (by decide)
  have h1only := h1.2 (by decide)
  exact ⟨⟨h1.1.1, h1only.1, h1only.2⟩, h2.1⟩

/-! ## C9: idempotence of `sort` on an unchanged environment -/

/-- A cache hit returns the cached set with the whole state unchanged. -/
theorem extractImports_hit (env : Env) (st : St) (p : String)
    (v : List String) (h : alGet st.importCache p = some v) :
    extractImports env st p = (v, st) := by
  simp [extractImports, h]

theorem loadLoop_preserves (env : Env) (root : String) :
    ∀ (fs : List String) (st : St),
      (loadLoop env root fs st).importCache = st.importCache ∧
      (loadLoop env root fs st).importGraph = st.importGraph := by
  intro fs
  induction fs with
  | nil => intro st; exact ⟨rfl, rfl⟩
  | cons c rest ih =>
    intro st
    simp only [loadLoop]
    by_cases hfe : env.fileExists (pathJoin root c) = true
    · rw [hfe]
      simp only [if_true]
      cases env.readFile (pathJoin root c) with
      | none => exact ih st
      | some content =>
        dsimp only
        cases env.parseConfig content with
        | none => exact ih st
        | some opts =>
          dsimp only
          split
          · exact ih st
          · exact ⟨rfl, rfl⟩
    · simp only [Bool.not_eq_true] at hfe
      rw [hfe]
      simp only [Bool.false_eq_true, if_false]
      exact ih st

theorem loadPathAliases_preserves (env : Env) (st : St) :
    (loadPathAliases env st).importCache = st.importCache ∧
    (loadPathAliases env st).importGraph = st.importGraph := by
  unfold loadPathAliases
  cases st.pathAliases with
  | some a => exact ⟨rfl, rfl⟩
  | none =>
    cases env.workspaceRoot with
    | none => exact ⟨rfl, rfl⟩
    | some root => exact loadLoop_preserves env root env.aliasConfigFiles _

theorem resolveImportPath_preserves (env : Env) (st : St)
    (fromFile importPath : String) :
    ((resolveImportPath env st fromFile importPath).2).importCache
        = st.importCache ∧
    ((resolveImportPath env st fromFile importPath).2).importGraph
        = st.importGraph := by
  unfold resolveImportPath
  split
  · exact ⟨rfl, rfl⟩
  · have hl := loadPathAliases_preserves env st
    cases h1 : (loadPathAliases env st).pathAliases with
    | none =>
      simp only [h1]
      exact hl
    | some aliases =>
      cases h2 : (loadPathAliases env st).baseUrl with
      | none =>
        simp only [h1, h2]
        exact hl
      | some base =>
        simp only [h1, h2]
        exact hl

theorem resolveRefs_preserves (env : Env) (fromFile : String) :
    ∀ (refs imports : List String) (st : St),
      ((resolveRefs env fromFile refs imports st).2).importCache
          = st.importCache ∧
      ((resolveRefs env fromFile refs imports st).2).importGraph
          = st.importGraph := by
  intro refs
  induction refs with
  | nil => intro imports st; exact ⟨rfl, rfl⟩
  | cons ref rest ih =>
    intro imports st
    simp only [resolveRefs]
    have hr := resolveImportPath_preserves env st fromFile ref
    cases hres : resolveImportPath env st fromFile ref with
    | mk res st' =>
      rw [hres] at hr
      cases res with
      | none =>
        simp only
        have := ih imports st'
        exact ⟨this.1.trans hr.1, this.2.trans hr.2⟩
      | some resolved =>
        simp only
        have := ih (setAdd imports resolved) st'
        exact ⟨this.1.trans hr.1, this.2.trans hr.2⟩

/-- After an extraction, the cache holds the returned set under the path,
all previous entries survive unchanged, and the graph is untouched. -/
theorem extractImports_cached (env : Env) (st : St) (p : String)
    (v : List String) (st' : St) (h : extractImports env st p = (v, st')) :
    alGet st'.importCache p = some v ∧
    (∀ q w, alGet st.importCache q = some w → alGet st'.importCache q = some w) ∧
    st'.importGraph = st.importGraph := by
  unfold extractImports at h
  cases hc : alGet st.importCache p with
  | some cached =>
    rw [hc] at h
    simp only [Prod.mk.injEq] at h
    obtain ⟨hv, hst⟩ := h
    subst hv hst
    exact ⟨hc, fun q w hq => hq, rfl⟩
  | none =>
    rw [hc] at h
    have hpres : ∀ (st₂ : St), st₂ = { st with importCache := alSet st.importCache p [] } →
        v = [] → st' = st₂ →
        alGet st'.importCache p = some v ∧
        (∀ q w, alGet st.importCache q = some w →
          alGet st'.importCache q = some w) ∧
        st'.importGraph = st.importGraph := by
      rintro st₂ rfl rfl rfl
      refine ⟨alGet_alSet_self _ _ _, ?_, rfl⟩
      intro q w hq
      have hqp : p ≠ q := by
        intro he
        rw [← he, hc] at hq
        cases hq
      rw [alGet_alSet_ne _ _ _ _ hqp]
      exact hq
    cases ho : env.openDoc p with
    | none =>
      simp only [ho] at h
      cases hr : env.readFile p with
      | none =>
        rw [hr] at h
        simp only [Prod.mk.injEq] at h
        exact hpres _ rfl h.1.symm h.2.symm
      | some text =>
        rw [hr] at h
        simp only at h
        by_cases hte : text = ""
        · rw [if_pos hte] at h
          simp only [Prod.mk.injEq] at h
          exact hpres _ rfl h.1.symm h.2.symm
        · rw [if_neg hte] at h
          cases hres : resolveRefs env p (env.scanRefs text) [] st with
          | mk imports st₁ =>
            rw [hres] at h
            simp only [Prod.mk.injEq] at h
            obtain ⟨hv, hst⟩ := h
            subst hv hst
            have hp := resolveRefs_preserves env p (env.scanRefs text) [] st
            rw [hres] at hp
            simp only at hp
            refine ⟨alGet_alSet_self _ _ _, ?_, hp.2⟩
            intro q w hq
            have hqp : p ≠ q := by
              intro he
              rw [← he, hc] at hq
              cases hq
            rw [alGet_alSet_ne _ _ _ _ hqp, hp.1]
            exact hq
    | some text =>
      simp only [ho] at h
      by_cases hte : text = ""
      · rw [if_pos hte] at h
        simp only [Prod.mk.injEq] at h
        exact hpres _ rfl h.1.symm h.2.symm
      · rw [if_neg hte] at h
        cases hres : resolveRefs env p (env.scanRefs text) [] st with
        | mk imports st₁ =>
          rw [hres] at h
          simp only [Prod.mk.injEq] at h
          obtain ⟨hv, hst⟩ := h
          subst hv hst
          have hp := resolveRefs_preserves env p (env.scanRefs text) [] st
          rw [hres] at hp
          simp only at hp
          refine ⟨alGet_alSet_self _ _ _, ?_, hp.2⟩
          intro q w hq
          have hqp : p ≠ q := by
            intro he
            rw [← he, hc] at hq
            cases hq
          rw [alGet_alSet_ne _ _ _ _ hqp, hp.1]
          exact hq

theorem buildLoop_cache (env : Env) :
    ∀ (tabs : List Tab) (st : St),
      (∀ q w, alGet st.importCache q = some w →
        alGet (buildLoop env tabs st).importCache q = some w) ∧
      (∀ t ∈ tabs, ∀ p, getTabPath t = some p →
        ∃ v, alGet (buildLoop env tabs st).importCache p = some v) := by
  intro tabs
  induction tabs with
  | nil =>
    intro st
    exact ⟨fun q w h => h, by simp⟩
  | cons t rest ih =>
    intro st
    cases ht : getTabPath t with
    | none =>
      rw [show buildLoop env (t :: rest) st = buildLoop env rest st from by
        simp only [buildLoop, ht]]
      refine ⟨(ih st).1, ?_⟩
      intro t' ht' p hp
      rcases List.mem_cons.mp ht' with he | he
      · subst he
        rw [ht] at hp
        cases hp
      · exact (ih st).2 t' he p hp
    | some p =>
      cases hex : extractImports env st p with
      | mk v st' =>
        have hc := extractImports_cached env st p v st' hex
        rw [show buildLoop env (t :: rest) st
            = buildLoop env rest { st' with importGraph := alSet st'.importGraph p v }
            from by simp only [buildLoop, ht, hex]]
        refine ⟨?_, ?_⟩
        · intro q w hq
          exact (ih _).1 q w (hc.2.1 q w hq)
        · intro t' ht' p' hp'
          rcases List.mem_cons.mp ht' with he | he
          · subst he
            rw [ht] at hp'
            injection hp' with hp''
            subst hp''
            exact ⟨v, (ih _).1 p v hc.1⟩
          · exact (ih _).2 t' he p' hp'

theorem buildLoop_graph (env : Env) :
    ∀ (tabs : List Tab) (st : St),
      (buildLoop env tabs st).importGraph
        = gFoldCache (buildLoop env tabs st).importCache tabs st.importGraph := by
  intro tabs
  induction tabs with
  | nil => intro st; rfl
  | cons t rest ih =>
    intro st
    cases ht : getTabPath t with
    | none =>
      rw [show buildLoop env (t :: rest) st = buildLoop env rest st from by
        simp only [buildLoop, ht]]
      rw [show gFoldCache (buildLoop env rest st).importCache (t :: rest)
            st.importGraph
          = gFoldCache (buildLoop env rest st).importCache rest st.importGraph
          from by simp only [gFoldCache, List.foldl_cons, ht]]
      exact ih st
    | some p =>
      cases hex : extractImports env st p with
      | mk v st' =>
        have hc := extractImports_cached env st p v st' hex
        rw [show buildLoop env (t :: rest) st
            = buildLoop env rest { st' with importGraph := alSet st'.importGraph p v }
            from by simp only [buildLoop, ht, hex]]
        have hCp : alGet (buildLoop env rest
            { st' with importGraph := alSet st'.importGraph p v }).importCache p
            = some v :=
          (buildLoop_cache env rest _).1 p v hc.1
        have hcons : gFoldCache (buildLoop env rest
              { st' with importGraph := alSet st'.importGraph p v }).importCache
              (t :: rest) st.importGraph
            = gFoldCache (buildLoop env rest
              { st' with importGraph := alSet st'.importGraph p v }).importCache
              rest (alSet st.importGraph p v) := by
          simp only [gFoldCache, List.foldl_cons, ht, hCp, Option.getD_some]
        rw [hcons, ih]
        congr 1
        show alSet st'.importGraph p v = alSet st.importGraph p v
        rw [hc.2.2]

theorem buildLoop_pure (env : Env) :
    ∀ (tabs : List Tab) (st : St),
      (∀ t ∈ tabs, ∀ p, getTabPath t = some p →
        ∃ v, alGet st.importCache p = some v) →
      buildLoop env tabs st
        = { st with importGraph := gFoldCache st.importCache tabs st.importGraph } := by
  intro tabs
  induction tabs with
  | nil =>
    intro st _
    rfl
  | cons t rest ih =>
    intro st h
    cases ht : getTabPath t with
    | none =>
      rw [show buildLoop env (t :: rest) st = buildLoop env rest st from by
        simp only [buildLoop, ht]]
      rw [ih st fun t' ht' p hp => h t' (List.mem_cons_of_mem _ ht') p hp]
      rw [show gFoldCache st.importCache (t :: rest) st.importGraph
          = gFoldCache st.importCache rest st.importGraph from by
        simp only [gFoldCache, List.foldl_cons, ht]]
    | some p =>
      obtain ⟨v, hv⟩ := h t (List.mem_cons_self _ _) p ht
      have hex : extractImports env st p = (v, st) := extractImports_hit env st p v hv
      rw [show buildLoop env (t :: rest) st
          = buildLoop env rest { st with importGraph := alSet st.importGraph p v }
          from by simp only [buildLoop, ht, hex]]
      rw [ih { st with importGraph := alSet st.importGraph p v }
        fun t' ht' p' hp' => h t' (List.mem_cons_of_mem _ ht') p' hp']
      rw [show gFoldCache st.importCache (t :: rest) st.importGraph
          = gFoldCache st.importCache rest (alSet st.importGraph p v) from by
        simp only [gFoldCache, List.foldl_cons, ht, hv, Option.getD_some]]

/-- On an unchanged environment, rebuilding the graph from the state the
first build produced reproduces that state exactly: every extraction hits
the cache. -/
theorem buildImportGraph_idem (env : Env) (st : St) (tabs : List Tab) :
    buildImportGraph env (buildImportGraph env st tabs) tabs
      = buildImportGraph env st tabs := by
  have hfull : ∀ t ∈ tabs, ∀ p, getTabPath t = some p →
      ∃ v, alGet (buildImportGraph env st tabs).importCache p = some v := by
    intro t ht p hp
    exact (buildLoop_cache env tabs { st with importGraph := [] }).2 t ht p hp
  have hsecond : buildImportGraph env (buildImportGraph env st tabs) tabs
      = { buildImportGraph env st tabs with
          importGraph := gFoldCache
            (buildImportGraph env st tabs).importCache tabs [] } := by
    show buildLoop env tabs
        { buildImportGraph env st tabs with importGraph := [] } = _
    rw [buildLoop_pure env tabs
      { buildImportGraph env st tabs with importGraph := [] }
      fun t ht p hp => hfull t ht p hp]
  have hfirst : (buildImportGraph env st tabs).importGraph
      = gFoldCache (buildImportGraph env st tabs).importCache tabs [] := by
    show (buildLoop env tabs { st with importGraph := [] }).importGraph = _
    rw [buildLoop_graph env tabs { st with importGraph := [] }]
    rfl
  rw [hsecond, ← hfirst]

/-- Claim **C9.** Calling `sort` twice in succession on the same instance, with
the same environment (unchanged open documents, disk contents, and
file-system probes) and the same tab list, produces the same output
ordering both times. -/
theorem C9_sort_idempotent (env : Env) (st : St) (tabs : List Tab) :
    (sortRun env (sortRun env st tabs).2 tabs).1 = (sortRun env st tabs).1 := by
  show (tabs.insertionSort fun a b =>
      tabCompare env.localeCompare
        (calculateImportScores
          (buildImportGraph env (buildImportGraph env st tabs) tabs).importGraph
          tabs) a b ≤ 0)
    = tabs.insertionSort fun a b =>
      tabCompare env.localeCompare
        (calculateImportScores (buildImportGraph env st tabs).importGraph tabs)
        a b ≤ 0
  rw [buildImportGraph_idem]

end TabOrg
